import Mathlib

/-!
Verification of the Aho-Corasick multi-pattern matcher (`Aho-Corasick.h`).

The C++ automaton is a pointer trie: each `Node` holds a `children` map, a
`parent` back-pointer with the edge character, a `failureLink`, an
`outputLink`, an `isWord` flag and the stored `pattern`.  Because the
`children` edges form a tree, every node is identified by the unique string
spelled on the path from the root to it.  The embedding below represents the
heap of nodes by that path view: the automaton state is the list of allocated
paths together with the per-path `isWord` / `pattern` fields, and the two link
fields are partial maps from paths to paths (`none` is the C++ `nullptr`).
The `id` field and `assignIds` are debugging aids that no other routine reads
and are omitted.  The two while-loops (the failure-link walk in
`connectFailureLink` and the mismatch walk in `findPatterns`) are translated
with an explicit fuel argument; the fuel passed at each call site is shown
sufficient by the strictly-decreasing-depth invariant proved below.
-/

namespace AhoC

/-- Strings as lists of characters. -/
abbrev Str := List Char

/-- The mutable state of the trie part of `class Aho_Corasick`: the set of
allocated node paths (the root is `[]`), and the `isWord` / `pattern` fields
of each node.  `parent` and `parentChar` of a path `s` are `s.dropLast` and
the last character of `s`, so they are not stored separately. -/
@[ext]
structure TrieS where
  nodes : List Str
  wordAt : Str → Bool
  patAt : Str → Str

/-- The state right after `root = new Node{}`: one root node, nothing marked. -/
def emptyTrie : TrieS :=
  { nodes := [[]], wordAt := fun _ => false, patAt := fun _ => [] }

/-- The character loop of `Aho_Corasick::insert`: `pre` is the path of the
current `node`; a missing child is allocated, and at the end of the pattern
the terminal node is marked (`isWord = true`, `pattern = s`; the terminal path
equals the full inserted word). -/
def insertStep : TrieS → Str → Str → TrieS
  | t, pre, [] =>
    { t with
      wordAt := fun q => if q = pre then true else t.wordAt q,
      patAt := fun q => if q = pre then pre else t.patAt q }
  | t, pre, c :: rest =>
    insertStep
      (if (pre ++ [c]) ∈ t.nodes then t
       else { t with nodes := t.nodes ++ [pre ++ [c]] })
      (pre ++ [c]) rest

/-- `Aho_Corasick::insert`, starting from the root. -/
def insert (t : TrieS) (s : Str) : TrieS :=
  insertStep t [] s

/-- `Aho_Corasick::buildTrieTree`: insert every word of the list. -/
def buildTrieTree (ws : List Str) : TrieS :=
  ws.foldl insert emptyTrie

/-- The `failureLink` and `outputLink` fields of every node; `none` models the
C++ `nullptr` (the initial value of both fields). -/
@[ext]
structure Links where
  fail : Str → Option Str
  out : Str → Option Str

/-- All link fields start as `nullptr`. -/
def initLinks : Links :=
  { fail := fun _ => none, out := fun _ => none }

/-- The `while (failureLink) { ... failureLink = failureLink->failureLink; }`
loop of `connectFailureLink`: follow `F` from the cursor until a node with a
child for `c` is found (returning that cursor) or the cursor is null
(returning `none`).  `fuel` bounds the iterations; the caller passes enough
fuel for the strictly-decreasing failure chain. -/
def walkFail (t : TrieS) (F : Str → Option Str) (c : Char) : Nat → Option Str → Option Str
  | _, none => none
  | 0, some _ => none
  | fuel + 1, some cur =>
    if (cur ++ [c]) ∈ t.nodes then some cur
    else walkFail t F c fuel (F cur)

/-- `Aho_Corasick::connectFailureLink` for the node at path `s`: the root is
skipped; a child of the root gets `failureLink = root` (and its `outputLink`
is left untouched, i.e. null); otherwise the failure chain of the parent is
walked, and on success the failure link is the matching child and the output
link is set from it, while on failure the default `failureLink = root`
remains and the output link is left untouched. -/
def connectFailureLink (t : TrieS) (L : Links) (s : Str) : Links :=
  if s = [] then L
  else
    let p := s.dropLast
    let c := s.getLastD '*'
    if p = [] then
      { L with fail := fun r => if r = s then some [] else L.fail r }
    else
      match walkFail t L.fail c s.length (L.fail p) with
      | some q =>
        { fail := fun r => if r = s then some (q ++ [c]) else L.fail r,
          out := fun r =>
            if r = s then
              (if t.wordAt (q ++ [c]) then some (q ++ [c]) else L.out (q ++ [c]))
            else L.out r }
      | none =>
        { L with fail := fun r => if r = s then some [] else L.fail r }

/-- Length of the longest allocated path. -/
def maxNodeLen (t : TrieS) : Nat :=
  t.nodes.foldl (fun m q => max m q.length) 0

/-- The nodes of the trie listed level by level, as the BFS queue of
`fillFailureLinks` visits them (within one level the order of an
`unordered_map` is unspecified; `connectFailureLink` reads only links of
strictly smaller depth, so any enumeration of a level is equivalent). -/
def nodesByDepth (t : TrieS) : List Str :=
  ((List.range (maxNodeLen t + 1)).map
    (fun d => t.nodes.filter (fun q => q.length == d))).flatten

/-- `Aho_Corasick::fillFailureLinks`: run `connectFailureLink` over every node
in breadth-first (level) order. -/
def fillFailureLinks (t : TrieS) : Links :=
  (nodesByDepth t).foldl (connectFailureLink t) initLinks

/-- The mismatch loop of `findPatterns`:
`while (node->failureLink && !node->children.contains(text[i]))` descend the
failure chain.  Returns the node at which the loop stops. -/
def scanWalk (t : TrieS) (L : Links) (x : Char) : Nat → Str → Str
  | 0, node => node
  | fuel + 1, node =>
    match L.fail node with
    | none => node
    | some q => if (node ++ [x]) ∈ t.nodes then node else scanWalk t L x fuel q

/-- One iteration of the text loop of `findPatterns`: from the current node,
consume character `x`.  Returns the new current node, and `some b` when a
child edge was taken (so the match-reporting block runs on `b`), or `none`
when the `continue` branch was taken. -/
def consume (t : TrieS) (L : Links) (node : Str) (x : Char) : Str × Option Str :=
  if (node ++ [x]) ∈ t.nodes then (node ++ [x], some (node ++ [x]))
  else
    let n := scanWalk t L x node.length node
    if (n ++ [x]) ∈ t.nodes then (n ++ [x], some (n ++ [x]))
    else (n, none)

/-- The `while (curr->outputLink)` chain of `findPatterns`: the nodes reported
through output links, in traversal order. -/
def outChain (L : Links) : Nat → Str → List Str
  | 0, _ => []
  | fuel + 1, s =>
    match L.out s with
    | none => []
    | some q => q :: outChain L fuel q

/-- The match-reporting block of `findPatterns` at text index `i`: the node
itself if it is a word, then every node on its output chain.  A report is the
pair (pattern, end index). -/
def emitAt (t : TrieS) (L : Links) (b : Str) (i : Nat) : List (Str × Nat) :=
  (if t.wordAt b then [(t.patAt b, i)] else [])
    ++ (outChain L b.length b).map (fun q => (t.patAt q, i))

/-- The text loop of `Aho_Corasick::findPatterns`, with the running index. -/
def scanFrom (t : TrieS) (L : Links) : Str → Nat → Str → List (Str × Nat)
  | _, _, [] => []
  | node, i, x :: rest =>
    match consume t L node x with
    | (n, some b) => emitAt t L b i ++ scanFrom t L n (i + 1) rest
    | (n, none) => scanFrom t L n (i + 1) rest

/-- `Aho_Corasick::findPatterns`: scan the whole text from the root. -/
def findPatterns (t : TrieS) (L : Links) (text : Str) : List (Str × Nat) :=
  scanFrom t L [] 0 text

/-- Build the automaton from the pattern list and scan a text: the composition
performed by the `Aho_Corasick` constructor followed by `findPatterns`.
Reports are (pattern, end index) pairs. -/
def acScan (ws : List Str) (text : Str) : List (Str × Nat) :=
  findPatterns (buildTrieTree ws) (fillFailureLinks (buildTrieTree ws)) text

/-- The reports of `acScan` as (pattern, start index) pairs,
`start = end + 1 - length`. -/
def startPairs (ws : List Str) (text : Str) : List (Str × Nat) :=
  (acScan ws text).map (fun pr => (pr.1, pr.2 + 1 - pr.1.length))

/-- The reports of `acScan` as (pattern, start index, end index) triples. -/
def acTriples (ws : List Str) (text : Str) : List (Str × Nat × Nat) :=
  (acScan ws text).map (fun pr => (pr.1, pr.2 + 1 - pr.1.length, pr.2))

/-- Naive reference matcher: pattern `p` occurs in `text` at position `j`. -/
def naiveOccursAt (p text : Str) (j : Nat) : Bool :=
  (text.drop j).take p.length == p

/-- Naive reference matcher: for every position of the text and every pattern
of the list, check whether the pattern occurs starting there. -/
def naivePairs (ws : List Str) (text : Str) : List (Str × Nat) :=
  (List.range text.length).flatMap
    (fun j => (ws.filter (fun p => naiveOccursAt p text j)).map (fun p => (p, j)))

/-- Modelled from the spec (section 4.2), for the refinement claim about
failure links: the reference cursor walk "while the cursor is not the root
and has no child for symbol `c`, advance the cursor to `cursor.failureLink`".
`F` is the finished failure-link table. -/
def refCursorWalk (t : TrieS) (F : Str → Option Str) (c : Char) : Nat → Str → Str
  | 0, cur => cur
  | fuel + 1, cur =>
    if cur = [] then cur
    else if (cur ++ [c]) ∈ t.nodes then cur
    else refCursorWalk t F c fuel ((F cur).getD [])

/-- Modelled from the spec (section 4.2): the failure link the reference
recurrence assigns to a node `n = p ++ [c]` of depth at least two: start the
cursor at `p.failureLink`, walk, then take the cursor's child for `c` if one
exists and the root otherwise. -/
def refFail (t : TrieS) (F : Str → Option Str) (s : Str) : Str :=
  let p := s.dropLast
  let c := s.getLastD '*'
  let cur := refCursorWalk t F c p.length ((F p).getD [])
  if (cur ++ [c]) ∈ t.nodes then cur ++ [c] else []

/-! ### Specification-side descriptions of the links

These executable descriptions are what the construction is proved to compute:
the failure link of a node is its longest proper suffix that is again a node,
and the output link is its longest proper suffix that is a word node. -/

/-- The longest proper suffix of `s` that is a node of the trie (`[]` when no
nonempty one exists; meaningful for `s ≠ []`, where the root qualifies). -/
def maxSuffixNode (t : TrieS) (s : Str) : Str :=
  (((s.tails.drop 1).filter (fun q => decide (q ∈ t.nodes))).headD [])

/-- The longest proper suffix of `s` that is marked as a word, if any. -/
def maxWordSuffix (t : TrieS) (s : Str) : Option Str :=
  ((s.tails.drop 1).filter (fun q => t.wordAt q)).head?

/-- The longest suffix of `u` (including `u` itself) that is a node. -/
def longestSufNode (t : TrieS) (u : Str) : Str :=
  ((u.tails.filter (fun q => decide (q ∈ t.nodes))).headD [])

/-- The longest suffix `q` of `v` (including `v`) such that `q ++ [c]` is a
node, if any: the stopping point of the failure walks. -/
def failCand (t : TrieS) (c : Char) (v : Str) : Option Str :=
  (v.tails.filter (fun q => decide ((q ++ [c]) ∈ t.nodes))).head?

/-- All suffixes of `u` that are words, longest first: the set of matches the
scanner must report after reading `u`. -/
def wordTails (t : TrieS) (u : Str) : List Str :=
  u.tails.filter (fun q => t.wordAt q)

/-- The canonical description of the scan: after each prefix `u ++ [x]` of the
text, report every word suffix of it, longest first.  `u` is the already-read
prefix, `i` the index of the next character. -/
def canonFrom (t : TrieS) : Str → Nat → Str → List (Str × Nat)
  | _, _, [] => []
  | u, i, x :: rest =>
    (wordTails t (u ++ [x])).map (fun q => (q, i)) ++ canonFrom t (u ++ [x]) (i + 1) rest

/-- One step along a failure chain, in `Option` (absorbing at `none`). -/
def failStep (L : Links) (o : Option Str) : Option Str :=
  o.bind L.fail

/-- The structural facts about any trie produced by `buildTrieTree` that the
link construction and the scanner rely on. -/
structure GoodTrie (t : TrieS) : Prop where
  root_mem : [] ∈ t.nodes
  nodup : t.nodes.Nodup
  closed : ∀ q c, (q ++ [c]) ∈ t.nodes → q ∈ t.nodes
  word_mem : ∀ q, t.wordAt q = true → q ∈ t.nodes
  pat_word : ∀ q, t.wordAt q = true → t.patAt q = q

/-! ### Generic list lemmas -/

theorem tails_sorted (l : List Char) :
    l.tails.Pairwise (fun a b => b.length < a.length) := by
  induction l with
  | nil => simp
  | cons a l ih =>
    rw [List.tails_cons]
    refine List.Pairwise.cons (fun b hb => ?_) ih
    have hsuf : b <:+ l := (List.mem_tails b l).mp hb
    have := hsuf.length_le
    simp only [List.length_cons]
    omega

theorem tails_drop_one (s : Str) (hs : s ≠ []) : s.tails.drop 1 = s.tail.tails := by
  cases s with
  | nil => exact absurd rfl hs
  | cons a l => rw [List.tails_cons]; rfl

theorem suffix_tail_iff (s q : Str) (hs : s ≠ []) :
    q <:+ s.tail ↔ q <:+ s ∧ q ≠ s := by
  cases s with
  | nil => exact absurd rfl hs
  | cons a l =>
    constructor
    · intro h
      refine ⟨h.trans (List.suffix_cons a l), ?_⟩
      intro hq
      have hlen := h.length_le
      rw [hq] at hlen
      simp only [List.length_cons, List.length_tail] at hlen
      omega
    · rintro ⟨h1, h2⟩
      rcases List.suffix_cons_iff.mp h1 with h | h
      · exact absurd h h2
      · exact h

theorem head_filter_none {α : Type} (P : α → Bool) (l : List α) :
    (l.filter P).head? = none ↔ ∀ q ∈ l, P q = false := by
  rw [List.head?_eq_none_iff, List.filter_eq_nil_iff]
  simp

theorem head_filter_some (P : Str → Bool) (m : Str) :
    ∀ l : List Str, l.Pairwise (fun a b => b.length < a.length) →
      ((l.filter P).head? = some m ↔
        m ∈ l ∧ P m = true ∧ ∀ q ∈ l, P q = true → q.length ≤ m.length) := by
  intro l
  induction l with
  | nil => simp
  | cons a l ih =>
    intro hp
    have hpl := hp.of_cons
    have hlen : ∀ q ∈ l, q.length < a.length := fun q hq => (List.pairwise_cons.mp hp).1 q hq
    by_cases ha : P a = true
    · rw [List.filter_cons_of_pos ha]
      simp only [List.head?_cons, Option.some.injEq]
      constructor
      · rintro rfl
        refine ⟨List.mem_cons_self _ _, ha, ?_⟩
        intro q hq _
        rcases List.mem_cons.mp hq with rfl | hq
        · exact le_rfl
        · exact le_of_lt (hlen q hq)
      · rintro ⟨hm, hPm, hmax⟩
        rcases List.mem_cons.mp hm with rfl | hm
        · rfl
        · have h1 := hmax a (List.mem_cons_self _ _) ha
          have h2 := hlen m hm
          omega
    · rw [List.filter_cons_of_neg (by simpa using ha)]
      rw [ih hpl]
      constructor
      · rintro ⟨hm, hPm, hmax⟩
        refine ⟨List.mem_cons_of_mem _ hm, hPm, ?_⟩
        intro q hq hPq
        rcases List.mem_cons.mp hq with rfl | hq
        · exact absurd hPq ha
        · exact hmax q hq hPq
      · rintro ⟨hm, hPm, hmax⟩
        rcases List.mem_cons.mp hm with rfl | hm
        · exact absurd hPm ha
        · exact ⟨hm, hPm, fun q hq hPq => hmax q (List.mem_cons_of_mem _ hq) hPq⟩

theorem filter_tails_congr (P : Str → Bool) :
    ∀ (a b : Str), b <:+ a → (∀ q, q <:+ a → P q = true → q.length ≤ b.length) →
      a.tails.filter P = b.tails.filter P := by
  intro a
  induction a with
  | nil =>
    intro b hb _
    rw [List.suffix_nil.mp hb]
  | cons x l ih =>
    intro b hb hmax
    rcases List.suffix_cons_iff.mp hb with rfl | hb'
    · rfl
    · have hPa : P (x :: l) = false := by
        by_contra h
        have h' : P (x :: l) = true := by
          cases hP : P (x :: l)
          · exact absurd hP h
          · rfl
        have := hmax (x :: l) List.suffix_rfl h'
        have := hb'.length_le
        simp only [List.length_cons] at *
        omega
      rw [List.tails_cons, List.filter_cons_of_neg (by simpa using hPa)]
      exact ih b hb' (fun q hq hPq => hmax q (hq.trans (List.suffix_cons x l)) hPq)

theorem suffix_of_suffix_length_le {q₁ q₂ v : Str}
    (h₁ : q₁ <:+ v) (h₂ : q₂ <:+ v) (hle : q₁.length ≤ q₂.length) : q₁ <:+ q₂ := by
  rw [← List.reverse_prefix] at h₁ h₂ ⊢
  exact List.prefix_of_prefix_length_le h₁ h₂ (by simpa using hle)

theorem suffix_eq_of_length_eq {q₁ q₂ v : Str}
    (h₁ : q₁ <:+ v) (h₂ : q₂ <:+ v) (hlen : q₁.length = q₂.length) : q₁ = q₂ := by
  have h := suffix_of_suffix_length_le h₁ h₂ (le_of_eq hlen)
  exact h.eq_of_length hlen

theorem suffix_append_singleton {q p : Str} (c : Char) (h : q <:+ p) :
    q ++ [c] <:+ p ++ [c] := by
  obtain ⟨t, rfl⟩ := h
  exact ⟨t, by rw [List.append_assoc]⟩

theorem suffix_snoc_elim {q p : Str} {c : Char} (h : q <:+ p ++ [c]) :
    q = [] ∨ ∃ q', q = q' ++ [c] ∧ q' <:+ p := by
  rcases List.eq_nil_or_concat q with rfl | ⟨q', d, hq⟩
  · exact Or.inl rfl
  · right
    rw [List.concat_eq_append] at hq
    subst hq
    obtain ⟨t, ht⟩ := h
    have hrev := congrArg List.reverse ht
    simp only [List.reverse_append, List.reverse_cons, List.reverse_nil,
      List.nil_append, List.cons_append, List.singleton_append] at hrev
    injection hrev with h1 h2
    subst h1
    refine ⟨q', rfl, ⟨t, ?_⟩⟩
    have h3 := congrArg List.reverse h2
    simpa [List.reverse_append] using h3

theorem dropLast_snoc (p : Str) (c : Char) : (p ++ [c]).dropLast = p := by
  simp

theorem getLastD_snoc (p : Str) (c : Char) (d : Char) : (p ++ [c]).getLastD d = c := by
  simp [List.getLastD_eq_getLast?]

/-! ### Characterizations of the longest-suffix descriptions -/

theorem proper_tails_sorted (s : Str) (hs : s ≠ []) :
    (s.tails.drop 1).Pairwise (fun a b => b.length < a.length) := by
  rw [tails_drop_one s hs]
  exact tails_sorted s.tail

theorem mem_proper_tails (s q : Str) (hs : s ≠ []) :
    q ∈ s.tails.drop 1 ↔ q <:+ s ∧ q ≠ s := by
  rw [tails_drop_one s hs, List.mem_tails]
  exact suffix_tail_iff s q hs

theorem maxSuffixNode_key (t : TrieS) (ht : GoodTrie t) (s : Str) (hs : s ≠ []) :
    ((s.tails.drop 1).filter (fun q => decide (q ∈ t.nodes))).head? =
      some (maxSuffixNode t s) := by
  have hne : (s.tails.drop 1).filter (fun q => decide (q ∈ t.nodes)) ≠ [] := by
    intro hnil
    have h0 : ([] : Str) ∈ (s.tails.drop 1).filter (fun q => decide (q ∈ t.nodes)) := by
      rw [List.mem_filter]
      exact ⟨(mem_proper_tails s [] hs).mpr ⟨(List.nil_suffix (l := s)), fun h => hs h.symm⟩,
        by simpa using ht.root_mem⟩
    rw [hnil] at h0
    exact absurd h0 (List.not_mem_nil _)
  rw [maxSuffixNode]
  cases hl : (s.tails.drop 1).filter (fun q => decide (q ∈ t.nodes)) with
  | nil => exact absurd hl hne
  | cons a l => simp

theorem maxSuffixNode_spec (t : TrieS) (ht : GoodTrie t) (s : Str) (hs : s ≠ []) :
    (maxSuffixNode t s <:+ s ∧ maxSuffixNode t s ≠ s) ∧ maxSuffixNode t s ∈ t.nodes ∧
      ∀ q, q <:+ s → q ≠ s → q ∈ t.nodes → q.length ≤ (maxSuffixNode t s).length := by
  have hkey := maxSuffixNode_key t ht s hs
  have hch := (head_filter_some _ _ _ (proper_tails_sorted s hs)).mp hkey
  obtain ⟨hmem, hP, hmax⟩ := hch
  refine ⟨(mem_proper_tails s _ hs).mp hmem, by simpa using hP, ?_⟩
  intro q hq hqs hqn
  exact hmax q ((mem_proper_tails s q hs).mpr ⟨hq, hqs⟩) (by simpa using hqn)

theorem maxSuffixNode_length_lt (t : TrieS) (ht : GoodTrie t) (s : Str) (hs : s ≠ []) :
    (maxSuffixNode t s).length < s.length := by
  obtain ⟨⟨hsuf, hne⟩, _, _⟩ := maxSuffixNode_spec t ht s hs
  have hle := hsuf.length_le
  rcases lt_or_eq_of_le hle with h | h
  · exact h
  · exact absurd (hsuf.eq_of_length h) hne

theorem maxSuffixNode_eq_of (t : TrieS) (ht : GoodTrie t) (s m : Str) (hs : s ≠ [])
    (hsuf : m <:+ s) (hne : m ≠ s) (hmem : m ∈ t.nodes)
    (hmax : ∀ q, q <:+ s → q ≠ s → q ∈ t.nodes → q.length ≤ m.length) :
    maxSuffixNode t s = m := by
  have hkey := maxSuffixNode_key t ht s hs
  have : ((s.tails.drop 1).filter (fun q => decide (q ∈ t.nodes))).head? = some m := by
    rw [head_filter_some _ _ _ (proper_tails_sorted s hs)]
    refine ⟨(mem_proper_tails s m hs).mpr ⟨hsuf, hne⟩, by simpa using hmem, ?_⟩
    intro q hq hP
    obtain ⟨hq1, hq2⟩ := (mem_proper_tails s q hs).mp hq
    exact hmax q hq1 hq2 (by simpa using hP)
  rw [this] at hkey
  exact (Option.some.inj hkey).symm

theorem failCand_some_iff (t : TrieS) (c : Char) (v q : Str) :
    failCand t c v = some q ↔
      q <:+ v ∧ (q ++ [c]) ∈ t.nodes ∧
        ∀ r, r <:+ v → (r ++ [c]) ∈ t.nodes → r.length ≤ q.length := by
  rw [failCand, head_filter_some _ _ _ (tails_sorted v)]
  simp only [List.mem_tails, decide_eq_true_eq]

theorem failCand_none_iff (t : TrieS) (c : Char) (v : Str) :
    failCand t c v = none ↔ ∀ q, q <:+ v → (q ++ [c]) ∉ t.nodes := by
  rw [failCand, head_filter_none]
  simp only [List.mem_tails, decide_eq_false_iff_not]

theorem maxWordSuffix_some_iff (t : TrieS) (s w : Str) (hs : s ≠ []) :
    maxWordSuffix t s = some w ↔
      (w <:+ s ∧ w ≠ s) ∧ t.wordAt w = true ∧
        ∀ q, q <:+ s → q ≠ s → t.wordAt q = true → q.length ≤ w.length := by
  rw [maxWordSuffix, head_filter_some _ _ _ (proper_tails_sorted s hs)]
  constructor
  · rintro ⟨hm, hw, hmax⟩
    exact ⟨(mem_proper_tails s w hs).mp hm, hw, fun q h1 h2 h3 =>
      hmax q ((mem_proper_tails s q hs).mpr ⟨h1, h2⟩) h3⟩
  · rintro ⟨hm, hw, hmax⟩
    exact ⟨(mem_proper_tails s w hs).mpr hm, hw, fun q hq h3 => by
      obtain ⟨h1, h2⟩ := (mem_proper_tails s q hs).mp hq
      exact hmax q h1 h2 h3⟩

theorem maxWordSuffix_none_iff (t : TrieS) (s : Str) (hs : s ≠ []) :
    maxWordSuffix t s = none ↔ ∀ q, q <:+ s → q ≠ s → t.wordAt q = false := by
  rw [maxWordSuffix, head_filter_none]
  constructor
  · intro h q h1 h2
    exact h q ((mem_proper_tails s q hs).mpr ⟨h1, h2⟩)
  · intro h q hq
    obtain ⟨h1, h2⟩ := (mem_proper_tails s q hs).mp hq
    exact h q h1 h2

theorem maxWordSuffix_nil (t : TrieS) : maxWordSuffix t [] = none := by
  rfl

theorem longestSufNode_key (t : TrieS) (ht : GoodTrie t) (u : Str) :
    (u.tails.filter (fun q => decide (q ∈ t.nodes))).head? = some (longestSufNode t u) := by
  have hne : u.tails.filter (fun q => decide (q ∈ t.nodes)) ≠ [] := by
    intro hnil
    have h0 : ([] : Str) ∈ u.tails.filter (fun q => decide (q ∈ t.nodes)) := by
      rw [List.mem_filter, List.mem_tails]
      exact ⟨(List.nil_suffix (l := u)), by simpa using ht.root_mem⟩
    rw [hnil] at h0
    exact absurd h0 (List.not_mem_nil _)
  rw [longestSufNode]
  cases hl : u.tails.filter (fun q => decide (q ∈ t.nodes)) with
  | nil => exact absurd hl hne
  | cons a l => simp

theorem longestSufNode_spec (t : TrieS) (ht : GoodTrie t) (u : Str) :
    longestSufNode t u <:+ u ∧ longestSufNode t u ∈ t.nodes ∧
      ∀ q, q <:+ u → q ∈ t.nodes → q.length ≤ (longestSufNode t u).length := by
  have hkey := longestSufNode_key t ht u
  have hch := (head_filter_some _ _ _ (tails_sorted u)).mp hkey
  obtain ⟨hmem, hP, hmax⟩ := hch
  refine ⟨(List.mem_tails _ _).mp hmem, by simpa using hP, ?_⟩
  intro q hq hqn
  exact hmax q ((List.mem_tails _ _).mpr hq) (by simpa using hqn)

theorem longestSufNode_eq_of (t : TrieS) (ht : GoodTrie t) (u b : Str)
    (hsuf : b <:+ u) (hmem : b ∈ t.nodes)
    (hmax : ∀ q, q <:+ u → q ∈ t.nodes → q.length ≤ b.length) :
    longestSufNode t u = b := by
  have hkey := longestSufNode_key t ht u
  have : (u.tails.filter (fun q => decide (q ∈ t.nodes))).head? = some b := by
    rw [head_filter_some _ _ _ (tails_sorted u)]
    refine ⟨(List.mem_tails _ _).mpr hsuf, by simpa using hmem, ?_⟩
    intro q hq hP
    exact hmax q ((List.mem_tails _ _).mp hq) (by simpa using hP)
  rw [this] at hkey
  exact (Option.some.inj hkey).symm

theorem longestSufNode_nil (t : TrieS) (ht : GoodTrie t) : longestSufNode t [] = [] := by
  apply longestSufNode_eq_of t ht [] [] List.suffix_rfl ht.root_mem
  intro q hq _
  simpa using hq.length_le

/-- Every suffix of `u` that is a node is a suffix of the longest one. -/
theorem suffix_node_le_longest (t : TrieS) (ht : GoodTrie t) (u q : Str)
    (hq : q <:+ u) (hmem : q ∈ t.nodes) : q <:+ longestSufNode t u := by
  obtain ⟨hsuf, _, hmax⟩ := longestSufNode_spec t ht u
  exact suffix_of_suffix_length_le hq hsuf (hmax q hq hmem)

/-! ### The trie produced by `buildTrieTree` -/

theorem insertStep_nodes_mem :
    ∀ (rest : Str) (pre : Str) (t : TrieS) (q : Str),
      q ∈ (insertStep t pre rest).nodes ↔
        q ∈ t.nodes ∨ ∃ r₁ r₂, rest = r₁ ++ r₂ ∧ r₁ ≠ [] ∧ q = pre ++ r₁ := by
  intro rest
  induction rest with
  | nil =>
    intro pre t q
    simp only [insertStep]
    constructor
    · exact Or.inl
    · rintro (h | ⟨r₁, r₂, hr, hne, _⟩)
      · exact h
      · exact absurd (List.append_eq_nil.mp hr.symm).1 hne
  | cons c rest ih =>
    intro pre t q
    simp only [insertStep]
    rw [ih]
    have hmem : q ∈ (if (pre ++ [c]) ∈ t.nodes then t
        else { t with nodes := t.nodes ++ [pre ++ [c]] }).nodes ↔
        q ∈ t.nodes ∨ q = pre ++ [c] := by
      split
      · rename_i h
        constructor
        · exact Or.inl
        · rintro (hq | rfl)
          · exact hq
          · exact h
      · simp [List.mem_append]
    rw [hmem]
    constructor
    · rintro ((hq | rfl) | ⟨r₁, r₂, hr, hne, rfl⟩)
      · exact Or.inl hq
      · exact Or.inr ⟨[c], rest, rfl, by simp, rfl⟩
      · exact Or.inr ⟨c :: r₁, r₂, by simp [hr], by simp, by simp⟩
    · rintro (hq | ⟨r₁, r₂, hr, hne, rfl⟩)
      · exact Or.inl (Or.inl hq)
      · cases r₁ with
        | nil => exact absurd rfl hne
        | cons d r₁ =>
          injection hr with h1 h2
          subst h1
          cases r₁ with
          | nil => exact Or.inl (Or.inr (by simp))
          | cons e r₁ => exact Or.inr ⟨e :: r₁, r₂, h2, by simp, by simp⟩

theorem insert_nodes_mem (t : TrieS) (s q : Str) :
    q ∈ (insert t s).nodes ↔ q ∈ t.nodes ∨ (q ≠ [] ∧ q <+: s) := by
  rw [insert, insertStep_nodes_mem]
  constructor
  · rintro (h | ⟨r₁, r₂, rfl, hne, rfl⟩)
    · exact Or.inl h
    · exact Or.inr ⟨by simpa using hne, ⟨r₂, by simp⟩⟩
  · rintro (h | ⟨hne, ⟨r₂, rfl⟩⟩)
    · exact Or.inl h
    · exact Or.inr ⟨q, r₂, rfl, hne, by simp⟩

theorem insertStep_wordAt :
    ∀ (rest : Str) (pre : Str) (t : TrieS) (q : Str),
      (insertStep t pre rest).wordAt q =
        if q = pre ++ rest then true else t.wordAt q := by
  intro rest
  induction rest with
  | nil =>
    intro pre t q
    simp [insertStep]
  | cons c rest ih =>
    intro pre t q
    simp only [insertStep]
    rw [ih]
    have : (if (pre ++ [c]) ∈ t.nodes then t
        else { t with nodes := t.nodes ++ [pre ++ [c]] }).wordAt = t.wordAt := by
      split <;> rfl
    rw [this]
    have harr : (pre ++ [c]) ++ rest = pre ++ (c :: rest) := by simp
    rw [harr]

theorem insertStep_patAt :
    ∀ (rest : Str) (pre : Str) (t : TrieS) (q : Str),
      (insertStep t pre rest).patAt q =
        if q = pre ++ rest then pre ++ rest else t.patAt q := by
  intro rest
  induction rest with
  | nil =>
    intro pre t q
    simp [insertStep]
  | cons c rest ih =>
    intro pre t q
    simp only [insertStep]
    rw [ih]
    have : (if (pre ++ [c]) ∈ t.nodes then t
        else { t with nodes := t.nodes ++ [pre ++ [c]] }).patAt = t.patAt := by
      split <;> rfl
    rw [this]
    have harr : (pre ++ [c]) ++ rest = pre ++ (c :: rest) := by simp
    rw [harr]

theorem insertStep_nodes_nodup :
    ∀ (rest : Str) (pre : Str) (t : TrieS), t.nodes.Nodup →
      (insertStep t pre rest).nodes.Nodup := by
  intro rest
  induction rest with
  | nil => intro pre t h; exact h
  | cons c rest ih =>
    intro pre t h
    simp only [insertStep]
    apply ih
    split
    · exact h
    · rename_i hnot
      simpa [List.nodup_append] using ⟨h, hnot⟩

theorem fold_nodes_mem :
    ∀ (ws : List Str) (acc : TrieS) (q : Str),
      q ∈ (ws.foldl insert acc).nodes ↔
        q ∈ acc.nodes ∨ ∃ w ∈ ws, q ≠ [] ∧ q <+: w := by
  intro ws
  induction ws with
  | nil => simp
  | cons w ws ih =>
    intro acc q
    rw [List.foldl_cons, ih, insert_nodes_mem]
    constructor
    · rintro ((h | h) | ⟨w', hw', h2⟩)
      · exact Or.inl h
      · exact Or.inr ⟨w, List.mem_cons_self _ _, h⟩
      · exact Or.inr ⟨w', List.mem_cons_of_mem _ hw', h2⟩
    · rintro (h | ⟨w', hw', h2⟩)
      · exact Or.inl (Or.inl h)
      · rcases List.mem_cons.mp hw' with rfl | hw'
        · exact Or.inl (Or.inr h2)
        · exact Or.inr ⟨w', hw', h2⟩

theorem fold_wordAt :
    ∀ (ws : List Str) (acc : TrieS) (q : Str),
      (ws.foldl insert acc).wordAt q = if q ∈ ws then true else acc.wordAt q := by
  intro ws
  induction ws with
  | nil => simp
  | cons w ws ih =>
    intro acc q
    rw [List.foldl_cons, ih]
    have h1 : (insert acc w).wordAt q = if q = w then true else acc.wordAt q := by
      rw [insert, insertStep_wordAt]
      simp
    by_cases hq : q ∈ ws
    · simp [hq, List.mem_cons]
    · rw [if_neg hq, h1]
      by_cases hw : q = w
      · simp [hw]
      · simp [hw, hq, List.mem_cons]

theorem fold_patAt :
    ∀ (ws : List Str) (acc : TrieS) (q : Str),
      (ws.foldl insert acc).patAt q = if q ∈ ws then q else acc.patAt q := by
  intro ws
  induction ws with
  | nil => simp
  | cons w ws ih =>
    intro acc q
    rw [List.foldl_cons, ih]
    have h1 : (insert acc w).patAt q = if q = w then w else acc.patAt q := by
      rw [insert, insertStep_patAt]
      by_cases hw : q = w
      · simp [hw]
      · simp [hw]
    by_cases hq : q ∈ ws
    · simp [hq, List.mem_cons]
    · rw [if_neg hq, h1]
      by_cases hw : q = w
      · subst hw
        simp [List.mem_cons]
      · simp [hw, hq, List.mem_cons]

theorem fold_nodes_nodup :
    ∀ (ws : List Str) (acc : TrieS), acc.nodes.Nodup → (ws.foldl insert acc).nodes.Nodup := by
  intro ws
  induction ws with
  | nil => intro acc h; exact h
  | cons w ws ih =>
    intro acc h
    exact ih _ (insertStep_nodes_nodup w [] acc h)

theorem bt_nodes_mem (ws : List Str) (q : Str) :
    q ∈ (buildTrieTree ws).nodes ↔ q = [] ∨ ∃ w ∈ ws, q ≠ [] ∧ q <+: w := by
  rw [buildTrieTree, fold_nodes_mem]
  simp [emptyTrie]

theorem bt_wordAt (ws : List Str) (q : Str) :
    (buildTrieTree ws).wordAt q = true ↔ q ∈ ws := by
  rw [buildTrieTree, fold_wordAt]
  by_cases h : q ∈ ws <;> simp [h, emptyTrie]

theorem bt_patAt (ws : List Str) (q : Str) (h : q ∈ ws) :
    (buildTrieTree ws).patAt q = q := by
  rw [buildTrieTree, fold_patAt, if_pos h]

theorem goodTrie_build (ws : List Str) : GoodTrie (buildTrieTree ws) := by
  constructor
  · rw [bt_nodes_mem]
    exact Or.inl rfl
  · exact fold_nodes_nodup ws emptyTrie (by simp [emptyTrie])
  · intro q c hqc
    rw [bt_nodes_mem] at hqc ⊢
    rcases hqc with h | ⟨w, hw, _, hpre⟩
    · exact absurd h (by simp)
    · by_cases hq : q = []
      · exact Or.inl hq
      · exact Or.inr ⟨w, hw, hq, (List.prefix_append q [c]).trans hpre⟩
  · intro q hq
    rw [bt_wordAt] at hq
    rw [bt_nodes_mem]
    by_cases h : q = []
    · exact Or.inl h
    · exact Or.inr ⟨q, hq, h, List.prefix_rfl⟩
  · intro q hq
    rw [bt_wordAt] at hq
    exact bt_patAt ws q hq

/-- Re-inserting a pattern whose whole prefix chain is already allocated only
re-marks the terminal node. -/
theorem insertStep_already :
    ∀ (rest : Str) (pre : Str) (t : TrieS),
      (∀ r₁ r₂, rest = r₁ ++ r₂ → r₁ ≠ [] → pre ++ r₁ ∈ t.nodes) →
      insertStep t pre rest =
        { t with
          wordAt := fun q => if q = pre ++ rest then true else t.wordAt q,
          patAt := fun q => if q = pre ++ rest then pre ++ rest else t.patAt q } := by
  intro rest
  induction rest with
  | nil =>
    intro pre t _
    simp [insertStep]
  | cons c rest ih =>
    intro pre t h
    have hc : pre ++ [c] ∈ t.nodes := h [c] rest rfl (by simp)
    simp only [insertStep, if_pos hc]
    rw [ih (pre ++ [c]) t (fun r₁ r₂ hr hne => by
      have := h (c :: r₁) r₂ (by simp [hr]) (by simp)
      simpa using this)]
    have harr : (pre ++ [c]) ++ rest = pre ++ (c :: rest) := by simp
    rw [harr]

/-- Inserting a pattern that is already stored leaves the trie unchanged. -/
theorem insert_mem_id (ws : List Str) (s : Str) (hs : s ∈ ws) :
    insert (buildTrieTree ws) s = buildTrieTree ws := by
  rw [insert, insertStep_already s [] (buildTrieTree ws) (fun r₁ r₂ hr hne => by
    rw [bt_nodes_mem]
    exact Or.inr ⟨s, hs, by simpa using hne, by rw [hr]; exact ⟨r₂, by simp⟩⟩)]
  ext q
  · simp
  · simp only [List.nil_append]
    by_cases hq : q = s
    · subst hq
      simp [(bt_wordAt ws q).mpr hs]
    · simp [hq]
  · simp only [List.nil_append]
    by_cases hq : q = s
    · subst hq
      simp [bt_patAt ws q hs]
    · simp [hq]

/-! ### The level order of `fillFailureLinks` -/

theorem le_foldl_max (l : List Str) : ∀ a : Nat, a ≤ l.foldl (fun m q => max m q.length) a := by
  induction l with
  | nil => intro a; exact le_rfl
  | cons x l ih =>
    intro a
    exact le_trans (le_max_left a x.length) (ih (max a x.length))

theorem length_le_maxNodeLen (t : TrieS) (q : Str) (hq : q ∈ t.nodes) :
    q.length ≤ maxNodeLen t := by
  rw [maxNodeLen]
  have : ∀ (l : List Str) (a : Nat), q ∈ l → q.length ≤ l.foldl (fun m r => max m r.length) a := by
    intro l
    induction l with
    | nil => intro a h; exact absurd h (List.not_mem_nil q)
    | cons x l ih =>
      intro a h
      rcases List.mem_cons.mp h with rfl | h
      · exact le_trans (le_max_right a q.length) (le_foldl_max l _)
      · exact ih _ h
  exact this t.nodes 0 hq

theorem mem_nodesByDepth (t : TrieS) (q : Str) :
    q ∈ nodesByDepth t ↔ q ∈ t.nodes := by
  rw [nodesByDepth, List.mem_flatten]
  constructor
  · rintro ⟨l, hl, hq⟩
    obtain ⟨d, _, rfl⟩ := List.mem_map.mp hl
    exact (List.mem_filter.mp hq).1
  · intro hq
    refine ⟨t.nodes.filter (fun r => r.length == q.length), ?_, ?_⟩
    · exact List.mem_map.mpr ⟨q.length, List.mem_range.mpr
        (Nat.lt_succ_of_le (length_le_maxNodeLen t q hq)), rfl⟩
    · exact List.mem_filter.mpr ⟨hq, by simp⟩

theorem nodesByDepth_nodup (t : TrieS) (h : t.nodes.Nodup) : (nodesByDepth t).Nodup := by
  rw [nodesByDepth, List.nodup_flatten]
  constructor
  · intro l hl
    obtain ⟨d, _, rfl⟩ := List.mem_map.mp hl
    exact h.filter _
  · rw [List.pairwise_map]
    refine List.Pairwise.imp ?_ (List.pairwise_lt_range _)
    intro d₁ d₂ hlt
    rw [List.disjoint_left]
    intro q h1 h2
    have e1 := (List.mem_filter.mp h1).2
    have e2 := (List.mem_filter.mp h2).2
    simp only [beq_iff_eq] at e1 e2
    omega

theorem nodesByDepth_sorted (t : TrieS) :
    (nodesByDepth t).Pairwise (fun a b => a.length ≤ b.length) := by
  rw [nodesByDepth, List.pairwise_flatten]
  refine ⟨?_, ?_⟩
  · intro l hl
    obtain ⟨d, _, rfl⟩ := List.mem_map.mp hl
    refine List.pairwise_of_forall_mem_list ?_
    intro a ha b hb
    have e1 := (List.mem_filter.mp ha).2
    have e2 := (List.mem_filter.mp hb).2
    simp only [beq_iff_eq] at e1 e2
    omega
  · rw [List.pairwise_map]
    refine List.Pairwise.imp ?_ (List.pairwise_lt_range _)
    intro d₁ d₂ hlt q hq r hr
    have e1 := (List.mem_filter.mp hq).2
    have e2 := (List.mem_filter.mp hr).2
    simp only [beq_iff_eq] at e1 e2
    omega

/-! ### The failure walks compute the longest suffix with the wanted child -/

theorem tails_eq_cons (v : Str) (hv : v ≠ []) : v.tails = v :: v.tail.tails := by
  cases v with
  | nil => exact absurd rfl hv
  | cons a l => rw [List.tails_cons]; rfl

/-- Stepping from `v` to its longest proper suffix node loses no candidate:
if `v` itself lacks the child, the walks may continue from `maxSuffixNode`. -/
theorem failCand_congr (t : TrieS) (ht : GoodTrie t) (c : Char) (v : Str)
    (hv : v ≠ []) (hvc : (v ++ [c]) ∉ t.nodes) :
    failCand t c v = failCand t c (maxSuffixNode t v) := by
  obtain ⟨⟨hsuf, hne⟩, hmem, hmax⟩ := maxSuffixNode_spec t ht v hv
  rw [failCand, failCand, tails_eq_cons v hv,
    List.filter_cons_of_neg (by simpa using hvc)]
  congr 1
  refine filter_tails_congr _ v.tail (maxSuffixNode t v)
    ((suffix_tail_iff v _ hv).mpr ⟨hsuf, hne⟩) ?_
  intro q hq hP
  obtain ⟨hq1, hq2⟩ := (suffix_tail_iff v q hv).mp hq
  have hqn : (q ++ [c]) ∈ t.nodes := by simpa using hP
  exact hmax q hq1 hq2 (ht.closed q c hqn)

theorem failCand_self (t : TrieS) (c : Char) (v : Str) (hvc : (v ++ [c]) ∈ t.nodes) :
    failCand t c v = some v := by
  rw [failCand_some_iff]
  exact ⟨List.suffix_rfl, hvc, fun r hr _ => hr.length_le⟩

theorem failCand_nil (t : TrieS) (c : Char) :
    (failCand t c []).getD [] = [] := by
  rcases h : failCand t c [] with _ | q
  · rfl
  · have := ((failCand_some_iff t c [] q).mp h).1
    rw [List.suffix_nil.mp this]
    rfl

theorem walkFail_eq (t : TrieS) (ht : GoodTrie t) (c : Char) (F : Str → Option Str)
    (hF0 : F [] = none) :
    ∀ (fuel : Nat) (v : Str), v ∈ t.nodes → v.length < fuel →
      (∀ q, q ∈ t.nodes → q ≠ [] → q.length ≤ v.length → F q = some (maxSuffixNode t q)) →
      walkFail t F c fuel (some v) = failCand t c v := by
  intro fuel
  induction fuel with
  | zero => intro v _ h _; omega
  | succ fuel ih =>
    intro v hv hlt hF
    rw [walkFail]
    by_cases hvc : (v ++ [c]) ∈ t.nodes
    · rw [if_pos hvc, failCand_self t c v hvc]
    · rw [if_neg hvc]
      by_cases hnil : v = []
      · subst hnil
        rw [hF0, walkFail]
        symm
        rw [failCand_none_iff]
        intro q hq
        rw [List.suffix_nil.mp hq]
        exact hvc
      · have hmv := hF v hv hnil le_rfl
        rw [hmv]
        obtain ⟨⟨hsuf, hne⟩, hmem, _⟩ := maxSuffixNode_spec t ht v hnil
        have hmlt := maxSuffixNode_length_lt t ht v hnil
        rw [ih (maxSuffixNode t v) hmem (by omega)
          (fun q hq hqn hql => hF q hq hqn (by omega)),
          failCand_congr t ht c v hnil hvc]

theorem scanWalk_eq (t : TrieS) (ht : GoodTrie t) (L : Links) (x : Char)
    (hL0 : L.fail [] = none)
    (hL : ∀ q, q ∈ t.nodes → q ≠ [] → L.fail q = some (maxSuffixNode t q)) :
    ∀ (fuel : Nat) (v : Str), v ∈ t.nodes → v.length ≤ fuel →
      scanWalk t L x fuel v = (failCand t x v).getD [] := by
  intro fuel
  induction fuel with
  | zero =>
    intro v _ hlen
    have : v = [] := List.length_eq_zero.mp (by omega)
    subst this
    rw [scanWalk, failCand_nil]
  | succ fuel ih =>
    intro v hv hlen
    rw [scanWalk]
    by_cases hnil : v = []
    · subst hnil
      rw [hL0, failCand_nil]
    · rw [hL v hv hnil]
      by_cases hvc : (v ++ [x]) ∈ t.nodes
      · simp only [if_pos hvc]
        rw [failCand_self t x v hvc]
        rfl
      · simp only [if_neg hvc]
        obtain ⟨⟨hsuf, hne⟩, hmem, _⟩ := maxSuffixNode_spec t ht v hnil
        have hmlt := maxSuffixNode_length_lt t ht v hnil
        rw [ih (maxSuffixNode t v) hmem (by omega),
          failCand_congr t ht x v hnil hvc]

theorem refCursorWalk_eq (t : TrieS) (ht : GoodTrie t) (c : Char) (F : Str → Option Str)
    (hF : ∀ q, q ∈ t.nodes → q ≠ [] → F q = some (maxSuffixNode t q)) :
    ∀ (fuel : Nat) (v : Str), v ∈ t.nodes → v.length ≤ fuel →
      refCursorWalk t F c fuel v = (failCand t c v).getD [] := by
  intro fuel
  induction fuel with
  | zero =>
    intro v _ hlen
    have : v = [] := List.length_eq_zero.mp (by omega)
    subst this
    rw [refCursorWalk, failCand_nil]
  | succ fuel ih =>
    intro v hv hlen
    rw [refCursorWalk]
    by_cases hnil : v = []
    · subst hnil
      rw [if_pos rfl, failCand_nil]
    · rw [if_neg hnil]
      by_cases hvc : (v ++ [c]) ∈ t.nodes
      · rw [if_pos hvc, failCand_self t c v hvc]
        rfl
      · rw [if_neg hvc, hF v hv hnil]
        obtain ⟨⟨hsuf, hne⟩, hmem, _⟩ := maxSuffixNode_spec t ht v hnil
        have hmlt := maxSuffixNode_length_lt t ht v hnil
        have : (some (maxSuffixNode t v)).getD ([] : Str) = maxSuffixNode t v := rfl
        rw [this, ih (maxSuffixNode t v) hmem (by omega),
          failCand_congr t ht c v hnil hvc]

/-- The recurrence the construction implements: the longest proper suffix
node of `p ++ [c]` is the found cursor's child for `c`, or the root. -/
theorem msn_snoc (t : TrieS) (ht : GoodTrie t) (p : Str) (c : Char) (hp : p ≠ []) :
    maxSuffixNode t (p ++ [c]) =
      match failCand t c (maxSuffixNode t p) with
      | some q => q ++ [c]
      | none => [] := by
  obtain ⟨⟨hsuf0, hne0⟩, hmem0, hmax0⟩ := maxSuffixNode_spec t ht p hp
  have hlt0 := maxSuffixNode_length_lt t ht p hp
  have hsne : p ++ [c] ≠ [] := by simp
  rcases hfc : failCand t c (maxSuffixNode t p) with _ | q
  · obtain hnone := (failCand_none_iff t c _).mp hfc
    refine maxSuffixNode_eq_of t ht (p ++ [c]) [] hsne (List.nil_suffix (l := p ++ [c]))
      (fun h => hsne h.symm) ht.root_mem ?_
    intro r hr hrs hrn
    rcases suffix_snoc_elim hr with rfl | ⟨r', rfl, hr'⟩
    · exact le_rfl
    · exfalso
      have hr'p : r' ≠ p := fun h => hrs (by rw [h])
      have hr'n : r' ∈ t.nodes := ht.closed r' c hrn
      have hr'le : r'.length ≤ (maxSuffixNode t p).length := hmax0 r' hr' hr'p hr'n
      have hr'suf : r' <:+ maxSuffixNode t p :=
        suffix_of_suffix_length_le hr' hsuf0 hr'le
      exact hnone r' hr'suf hrn
  · obtain ⟨hq1, hq2, hq3⟩ := (failCand_some_iff t c _ q).mp hfc
    refine maxSuffixNode_eq_of t ht (p ++ [c]) (q ++ [c]) hsne ?_ ?_ hq2 ?_
    · exact suffix_append_singleton c ((hq1.trans hsuf0))
    · intro h
      have h1 := hq1.length_le
      have h2 := congrArg List.length h
      simp only [List.length_append, List.length_cons, List.length_nil] at h2
      omega
    · intro r hr hrs hrn
      rcases suffix_snoc_elim hr with rfl | ⟨r', rfl, hr'⟩
      · simp
      · have hr'p : r' ≠ p := fun h => hrs (by rw [h])
        have hr'n : r' ∈ t.nodes := ht.closed r' c hrn
        have hr'le : r'.length ≤ (maxSuffixNode t p).length := hmax0 r' hr' hr'p hr'n
        have hr'suf : r' <:+ maxSuffixNode t p :=
          suffix_of_suffix_length_le hr' hsuf0 hr'le
        have := hq3 r' hr'suf hrn
        simp only [List.length_append, List.length_cons, List.length_nil]
        omega

/-- The recurrence the construction implements for output links: the longest
proper word suffix is the failure target when that is a word, and the failure
target's longest proper word suffix otherwise. -/
theorem mws_rec (t : TrieS) (ht : GoodTrie t) (s : Str) (hs : s ≠ [])
    (hw : t.wordAt [] = false) :
    maxWordSuffix t s =
      (if t.wordAt (maxSuffixNode t s) = true then some (maxSuffixNode t s)
       else maxWordSuffix t (maxSuffixNode t s)) := by
  obtain ⟨⟨hsuf, hne⟩, hmem, hmax⟩ := maxSuffixNode_spec t ht s hs
  have hlt := maxSuffixNode_length_lt t ht s hs
  have key : ∀ q, q <:+ s → q ≠ s → t.wordAt q = true → q <:+ maxSuffixNode t s := by
    intro q h1 h2 h3
    exact suffix_of_suffix_length_le h1 hsuf (hmax q h1 h2 (ht.word_mem q h3))
  by_cases hwm : t.wordAt (maxSuffixNode t s) = true
  · rw [if_pos hwm, maxWordSuffix_some_iff t s _ hs]
    refine ⟨⟨hsuf, hne⟩, hwm, ?_⟩
    intro q h1 h2 h3
    exact (key q h1 h2 h3).length_le
  · rw [if_neg hwm]
    by_cases hmn : maxSuffixNode t s = []
    · rw [hmn, maxWordSuffix_nil, maxWordSuffix_none_iff t s hs]
      intro q h1 h2
      have := key q h1 h2
      by_contra hq
      have hq' : t.wordAt q = true := by
        cases h : t.wordAt q
        · exact absurd h hq
        · rfl
      have := this hq'
      rw [hmn] at this
      rw [List.suffix_nil.mp this] at hq'
      rw [hq'] at hw
      simp at hw
    · rcases hmw : maxWordSuffix t (maxSuffixNode t s) with _ | w
      · obtain hn := (maxWordSuffix_none_iff t _ hmn).mp hmw
        rw [maxWordSuffix_none_iff t s hs]
        intro q h1 h2
        by_contra hq
        have hq' : t.wordAt q = true := by
          cases h : t.wordAt q
          · exact absurd h hq
          · rfl
        have hqsuf := key q h1 h2 hq'
        by_cases hqm : q = maxSuffixNode t s
        · rw [hqm] at hq'
          exact absurd hq' (by simpa using hwm)
        · have := hn q hqsuf hqm
          rw [hq'] at this
          simp at this
      · obtain ⟨⟨hw1, hw2⟩, hw3, hw4⟩ := (maxWordSuffix_some_iff t _ w hmn).mp hmw
        rw [maxWordSuffix_some_iff t s w hs]
        have hwlt : w.length < (maxSuffixNode t s).length := by
          have h1 := hw1.length_le
          rcases lt_or_eq_of_le h1 with h | h
          · exact h
          · exact absurd (hw1.eq_of_length h) hw2
        refine ⟨⟨hw1.trans hsuf, ?_⟩, hw3, ?_⟩
        · intro h
          rw [h] at hwlt
          omega
        · intro q h1 h2 h3
          have hqsuf := key q h1 h2 h3
          by_cases hqm : q = maxSuffixNode t s
          · rw [hqm] at h3
            exact absurd h3 hwm
          · exact hw4 q hqsuf hqm h3

/-! ### `fillFailureLinks` computes the longest-suffix links -/

theorem connect_nil (t : TrieS) (L : Links) : connectFailureLink t L [] = L := by
  rw [connectFailureLink, if_pos rfl]

theorem connect_snoc (t : TrieS) (L : Links) (p : Str) (c : Char) :
    connectFailureLink t L (p ++ [c]) =
      if p = [] then
        { L with fail := fun r => if r = p ++ [c] then some [] else L.fail r }
      else
        match walkFail t L.fail c (p ++ [c]).length (L.fail p) with
        | some q =>
          { fail := fun r => if r = p ++ [c] then some (q ++ [c]) else L.fail r,
            out := fun r =>
              if r = p ++ [c] then
                (if t.wordAt (q ++ [c]) then some (q ++ [c]) else L.out (q ++ [c]))
              else L.out r }
        | none =>
          { L with fail := fun r => if r = p ++ [c] then some [] else L.fail r } := by
  have hne : p ++ [c] ≠ [] := by simp
  rw [connectFailureLink, if_neg hne]
  simp only [dropLast_snoc, getLastD_snoc]

theorem connect_ne (t : TrieS) (L : Links) (s q : Str) (hq : q ≠ s) :
    (connectFailureLink t L s).fail q = L.fail q ∧
      (connectFailureLink t L s).out q = L.out q := by
  rcases List.eq_nil_or_concat s with rfl | ⟨p, c, hs⟩
  · rw [connect_nil]
    exact ⟨rfl, rfl⟩
  · rw [List.concat_eq_append] at hs
    subst hs
    rw [connect_snoc]
    by_cases hp : p = []
    · rw [if_pos hp]
      exact ⟨by simp [hq], rfl⟩
    · rw [if_neg hp]
      rcases walkFail t L.fail c (p ++ [c]).length (L.fail p) with _ | w
      · exact ⟨by simp [hq], rfl⟩
      · exact ⟨by simp [hq], by simp [hq]⟩

theorem msn_singleton (t : TrieS) (ht : GoodTrie t) (c : Char) :
    maxSuffixNode t [c] = [] := by
  refine maxSuffixNode_eq_of t ht [c] [] (by simp) (List.nil_suffix (l := [c]))
    (by simp) ht.root_mem ?_
  intro r hr hrs _
  have : ([] : Str) ++ [c] = [c] := by simp
  rw [← this] at hr
  rcases suffix_snoc_elim hr with rfl | ⟨r', rfl, hr'⟩
  · exact le_rfl
  · rw [List.suffix_nil.mp hr'] at hrs
    exact absurd (by simp) hrs

theorem mws_singleton (t : TrieS) (c : Char) (hw : t.wordAt [] = false) :
    maxWordSuffix t [c] = none := by
  rw [maxWordSuffix_none_iff t [c] (by simp)]
  intro q hq hqs
  have : ([] : Str) ++ [c] = [c] := by simp
  rw [← this] at hq
  rcases suffix_snoc_elim hq with rfl | ⟨q', rfl, hq'⟩
  · exact hw
  · rw [List.suffix_nil.mp hq'] at hqs
    exact absurd (by simp) hqs

/-- Processing one node whose smaller-depth links are already final writes the
longest-suffix links for that node. -/
theorem connect_step (t : TrieS) (ht : GoodTrie t) (L : Links) (s : Str)
    (hs_node : s ∈ t.nodes) (hs_ne : s ≠ [])
    (hLroot : L.fail [] = none ∧ L.out [] = none)
    (hLs : L.fail s = none ∧ L.out s = none)
    (hsmall : ∀ r, r ∈ t.nodes → r ≠ [] → r.length < s.length →
      L.fail r = some (maxSuffixNode t r) ∧
        (t.wordAt [] = false → L.out r = maxWordSuffix t r)) :
    (connectFailureLink t L s).fail s = some (maxSuffixNode t s) ∧
      (t.wordAt [] = false → (connectFailureLink t L s).out s = maxWordSuffix t s) := by
  rcases List.eq_nil_or_concat s with rfl | ⟨p, c, hs⟩
  · exact absurd rfl hs_ne
  · rw [List.concat_eq_append] at hs
    subst hs
    rw [connect_snoc]
    by_cases hp : p = []
    · subst hp
      rw [if_pos rfl]
      simp only [List.nil_append] at *
      constructor
      · rw [msn_singleton t ht c]
        simp
      · intro hw
        rw [mws_singleton t c hw]
        simpa using hLs.2
    · rw [if_neg hp]
      have hp_node : p ∈ t.nodes := ht.closed p c hs_node
      have hplen : p.length < (p ++ [c]).length := by simp
      obtain ⟨hfp, _⟩ := hsmall p hp_node hp hplen
      rw [hfp]
      obtain ⟨⟨hsuf0, hne0⟩, hmem0, _⟩ := maxSuffixNode_spec t ht p hp
      have hlt0 := maxSuffixNode_length_lt t ht p hp
      have hwalk : walkFail t L.fail c (p ++ [c]).length (some (maxSuffixNode t p)) =
          failCand t c (maxSuffixNode t p) := by
        refine walkFail_eq t ht c L.fail hLroot.1 _ _ hmem0 (by simp; omega) ?_
        intro r hr hrn hrl
        exact (hsmall r hr hrn (by simp; omega)).1
      rw [hwalk]
      rcases hfc : failCand t c (maxSuffixNode t p) with _ | q
      · have hmsn : maxSuffixNode t (p ++ [c]) = [] := by
          rw [msn_snoc t ht p c hp, hfc]
        constructor
        · rw [hmsn]
          simp
        · intro hw
          have : maxWordSuffix t (p ++ [c]) = none := by
            rw [mws_rec t ht (p ++ [c]) (by simp) hw, hmsn, hw]
            simp [maxWordSuffix_nil]
          rw [this]
          simpa using hLs.2
      · have hmsn : maxSuffixNode t (p ++ [c]) = q ++ [c] := by
          rw [msn_snoc t ht p c hp, hfc]
        constructor
        · rw [hmsn]
          simp
        · intro hw
          have hmem : q ++ [c] ∈ t.nodes := ((failCand_some_iff t c _ q).mp hfc).2.1
          have hqlt : (q ++ [c]).length < (p ++ [c]).length := by
            rw [← hmsn]
            exact maxSuffixNode_length_lt t ht (p ++ [c]) (by simp)
          have hrec := mws_rec t ht (p ++ [c]) (by simp) hw
          rw [hmsn] at hrec
          by_cases hwq : t.wordAt (q ++ [c]) = true
          · rw [hrec, if_pos hwq]
            simp [hwq]
          · have hwq' : t.wordAt (q ++ [c]) = false := by
              cases h : t.wordAt (q ++ [c])
              · rfl
              · exact absurd h hwq
            rw [hrec, if_neg hwq]
            simp only [hwq', if_neg]
            have := (hsmall (q ++ [c]) hmem (by simp) hqlt).2 hw
            simp [hwq', this]

/-- The breadth-first fold establishes the longest-suffix links for every
processed node and leaves every unprocessed node (and the root) null. -/
theorem fold_connect_inv (t : TrieS) (ht : GoodTrie t) :
    ∀ (todo done : List Str) (L : Links),
      (∀ q ∈ todo, q ∈ t.nodes) →
      (done ++ todo).Nodup →
      (done ++ todo).Pairwise (fun a b => a.length ≤ b.length) →
      (∀ q ∈ t.nodes, q ∈ done ∨ q ∈ todo) →
      (∀ q, (q ∉ done ∨ q = []) → L.fail q = none ∧ L.out q = none) →
      (∀ q ∈ done, q ≠ [] → L.fail q = some (maxSuffixNode t q) ∧
        (t.wordAt [] = false → L.out q = maxWordSuffix t q)) →
      (∀ q, (q ∉ done ++ todo ∨ q = []) →
        (todo.foldl (connectFailureLink t) L).fail q = none ∧
        (todo.foldl (connectFailureLink t) L).out q = none) ∧
      (∀ q ∈ done ++ todo, q ≠ [] →
        (todo.foldl (connectFailureLink t) L).fail q = some (maxSuffixNode t q) ∧
        (t.wordAt [] = false →
          (todo.foldl (connectFailureLink t) L).out q = maxWordSuffix t q)) := by
  intro todo
  induction todo with
  | nil =>
    intro done L _ _ _ _ hinv1 hinv2
    constructor
    · intro q hq
      rw [List.append_nil] at hq
      exact hinv1 q hq
    · intro q hq
      rw [List.append_nil] at hq
      exact hinv2 q hq
  | cons s todo ih =>
    intro done L htodo hnd hsort hcomp hinv1 hinv2
    have hs_node : s ∈ t.nodes := htodo s (List.mem_cons_self _ _)
    have hdisj : List.Disjoint done (s :: todo) := List.disjoint_of_nodup_append hnd
    have hs_done : s ∉ done := fun h => hdisj h (List.mem_cons_self _ _)
    have hsort_right : (s :: todo).Pairwise (fun a b => a.length ≤ b.length) :=
      hsort.sublist (List.sublist_append_right done _)
    have hcross : ∀ a ∈ done, ∀ b ∈ s :: todo, a.length ≤ b.length :=
      (List.pairwise_append.mp hsort).2.2
    by_cases hs_ne : s = []
    · -- the root is processed first and is a no-op
      subst hs_ne
      rw [List.foldl_cons, connect_nil]
      have heq : (done ++ [([] : Str)]) ++ todo = done ++ [] :: todo := by simp
      have := ih (done ++ [[]]) L (fun q hq => htodo q (List.mem_cons_of_mem _ hq))
        (by rw [heq]; exact hnd) (by rw [heq]; exact hsort)
        (fun q hq => by
          rcases hcomp q hq with h | h
          · exact Or.inl (List.mem_append_left _ h)
          · rcases List.mem_cons.mp h with rfl | h
            · exact Or.inl (List.mem_append_right _ (by simp))
            · exact Or.inr h)
        (fun q hq => by
          refine hinv1 q ?_
          rcases hq with hq | rfl
          · exact Or.inl (fun h => hq (List.mem_append_left _ h))
          · exact Or.inr rfl)
        (fun q hq hqn => by
          rcases List.mem_append.mp hq with h | h
          · exact hinv2 q h hqn
          · rw [List.mem_singleton] at h
            exact absurd h hqn)
      rw [heq] at this
      exact this
    · rw [List.foldl_cons]
      set L' := connectFailureLink t L s with hL'
      have hLs : L.fail s = none ∧ L.out s = none :=
        hinv1 s (Or.inl hs_done)
      have hLroot : L.fail [] = none ∧ L.out [] = none :=
        hinv1 [] (Or.inr rfl)
      have hsmall : ∀ r, r ∈ t.nodes → r ≠ [] → r.length < s.length →
          L.fail r = some (maxSuffixNode t r) ∧
            (t.wordAt [] = false → L.out r = maxWordSuffix t r) := by
        intro r hr hrn hrl
        have hrdone : r ∈ done := by
          rcases hcomp r hr with h | h
          · exact h
          · exfalso
            rcases List.mem_cons.mp h with rfl | h
            · omega
            · have := (List.pairwise_cons.mp hsort_right).1 r h
              omega
        exact hinv2 r hrdone hrn
      have hstep := connect_step t ht L s hs_node hs_ne hLroot hLs hsmall
      have heq : (done ++ [s]) ++ todo = done ++ s :: todo := by simp
      have := ih (done ++ [s]) L' (fun q hq => htodo q (List.mem_cons_of_mem _ hq))
        (by rw [heq]; exact hnd) (by rw [heq]; exact hsort)
        (fun q hq => by
          rcases hcomp q hq with h | h
          · exact Or.inl (List.mem_append_left _ h)
          · rcases List.mem_cons.mp h with rfl | h
            · exact Or.inl (List.mem_append_right _ (by simp))
            · exact Or.inr h)
        (fun q hq => by
          have hqs : q ≠ s := by
            rcases hq with hq | rfl
            · intro h
              exact hq (by rw [h]; exact List.mem_append_right _ (by simp))
            · intro h
              exact hs_ne h.symm
          obtain ⟨h1, h2⟩ := connect_ne t L s q hqs
          rw [← hL'] at h1 h2
          rw [h1, h2]
          refine hinv1 q ?_
          rcases hq with hq | rfl
          · exact Or.inl (fun h => hq (List.mem_append_left _ h))
          · exact Or.inr rfl)
        (fun q hq hqn => by
          rcases List.mem_append.mp hq with h | h
          · have hqs : q ≠ s := fun he => hs_done (he ▸ h)
            obtain ⟨h1, h2⟩ := connect_ne t L s q hqs
            rw [← hL'] at h1 h2
            rw [h1, h2]
            exact hinv2 q h hqn
          · rw [List.mem_singleton] at h
            subst h
            exact hstep)
      rw [heq] at this
      exact this

/-- After `fillFailureLinks`: the failure link of every non-root node is its
longest proper suffix that is a node, the output link (when no empty pattern
was inserted) is its longest proper suffix that is a word, and the root and
all non-nodes keep null links. -/
theorem links_final (t : TrieS) (ht : GoodTrie t) :
    (∀ q, (q ∉ t.nodes ∨ q = []) →
      (fillFailureLinks t).fail q = none ∧ (fillFailureLinks t).out q = none) ∧
    (∀ q ∈ t.nodes, q ≠ [] →
      (fillFailureLinks t).fail q = some (maxSuffixNode t q) ∧
      (t.wordAt [] = false → (fillFailureLinks t).out q = maxWordSuffix t q)) := by
  have h := fold_connect_inv t ht (nodesByDepth t) [] initLinks
    (fun q hq => (mem_nodesByDepth t q).mp hq)
    (by simpa using nodesByDepth_nodup t ht.nodup)
    (by simpa using nodesByDepth_sorted t)
    (fun q hq => Or.inr ((mem_nodesByDepth t q).mpr hq))
    (fun q _ => ⟨rfl, rfl⟩)
    (fun q hq => absurd hq (List.not_mem_nil q))
  rw [List.nil_append] at h
  constructor
  · intro q hq
    refine h.1 q ?_
    rcases hq with hq | rfl
    · exact Or.inl (fun hmem => hq ((mem_nodesByDepth t q).mp hmem))
    · exact Or.inr rfl
  · intro q hq hqn
    exact h.2 q ((mem_nodesByDepth t q).mpr hq) hqn

theorem fail_final (t : TrieS) (ht : GoodTrie t) (q : Str) (hq : q ∈ t.nodes)
    (hqn : q ≠ []) : (fillFailureLinks t).fail q = some (maxSuffixNode t q) :=
  ((links_final t ht).2 q hq hqn).1

theorem out_final (t : TrieS) (ht : GoodTrie t) (hw : t.wordAt [] = false) (q : Str)
    (hq : q ∈ t.nodes) (hqn : q ≠ []) :
    (fillFailureLinks t).out q = maxWordSuffix t q :=
  ((links_final t ht).2 q hq hqn).2 hw

theorem root_links_final (t : TrieS) (ht : GoodTrie t) :
    (fillFailureLinks t).fail [] = none ∧ (fillFailureLinks t).out [] = none :=
  (links_final t ht).1 [] (Or.inr rfl)

/-! ### The scanner follows the longest suffix node and reports word suffixes -/

theorem outChain_eq (t : TrieS) (ht : GoodTrie t) (hw : t.wordAt [] = false) :
    ∀ (fuel : Nat) (b : Str), b ∈ t.nodes → b.length ≤ fuel →
      outChain (fillFailureLinks t) fuel b =
        (b.tails.drop 1).filter (fun q => t.wordAt q) := by
  intro fuel
  induction fuel with
  | zero =>
    intro b _ hlen
    have : b = [] := List.length_eq_zero.mp (by omega)
    subst this
    rfl
  | succ fuel ih =>
    intro b hb hlen
    by_cases hbn : b = []
    · subst hbn
      rw [outChain, (root_links_final t ht).2]
      rfl
    · rw [outChain, out_final t ht hw b hb hbn]
      rcases hmw : maxWordSuffix t b with _ | m
      · rw [maxWordSuffix] at hmw
        rw [List.head?_eq_none_iff.mp hmw]
      · obtain ⟨⟨hm1, hm2⟩, hm3, hm4⟩ := (maxWordSuffix_some_iff t b m hbn).mp hmw
        have hmmem : m ∈ t.nodes := ht.word_mem m hm3
        have hmne : m ≠ [] := fun h => by rw [h] at hm3; rw [hm3] at hw; simp at hw
        have hmlt : m.length < b.length := by
          have h1 := hm1.length_le
          rcases lt_or_eq_of_le h1 with h | h
          · exact h
          · exact absurd (hm1.eq_of_length h) hm2
        show m :: outChain (fillFailureLinks t) fuel m = _
        rw [ih m hmmem (by omega)]
        rw [tails_drop_one b hbn]
        rw [filter_tails_congr _ b.tail m ((suffix_tail_iff b m hbn).mpr ⟨hm1, hm2⟩)
          (fun q hq hP => by
            obtain ⟨h1, h2⟩ := (suffix_tail_iff b q hbn).mp hq
            exact hm4 q h1 h2 hP)]
        rw [tails_eq_cons m hmne, List.filter_cons_of_pos hm3]
        simp only [List.drop_succ_cons, List.drop_zero]

theorem emitAt_eq (t : TrieS) (ht : GoodTrie t) (hw : t.wordAt [] = false)
    (b : Str) (hb : b ∈ t.nodes) (hbn : b ≠ []) (i : Nat) :
    emitAt t (fillFailureLinks t) b i = (wordTails t b).map (fun q => (q, i)) := by
  rw [emitAt, outChain_eq t ht hw b.length b hb le_rfl, wordTails,
    tails_eq_cons b hbn, List.filter_cons]
  simp only [List.drop_succ_cons, List.drop_zero]
  cases hwb : t.wordAt b with
  | false =>
    simp only [Bool.false_eq_true, if_false, List.nil_append]
    exact List.map_congr_left fun q hq => by
      rw [ht.pat_word q (List.mem_filter.mp hq).2]
  | true =>
    simp only [if_true, List.singleton_append, List.map_cons, ht.pat_word b hwb]
    exact congrArg (List.cons _)
      (List.map_congr_left fun q hq => by
        rw [ht.pat_word q (List.mem_filter.mp hq).2])

theorem wordTails_longest (t : TrieS) (ht : GoodTrie t) (u : Str) :
    wordTails t u = wordTails t (longestSufNode t u) := by
  obtain ⟨hsuf, hmem, hmax⟩ := longestSufNode_spec t ht u
  rw [wordTails, wordTails]
  refine filter_tails_congr _ u (longestSufNode t u) hsuf ?_
  intro q hq hP
  exact hmax q hq (ht.word_mem q hP)

theorem wordTails_nil (t : TrieS) (hw : t.wordAt [] = false) : wordTails t [] = [] := by
  rw [wordTails]
  simp [hw]

/-- The longest suffix node after one more character, from the walk result. -/
theorem lsn_snoc (t : TrieS) (ht : GoodTrie t) (u : Str) (x : Char) :
    longestSufNode t (u ++ [x]) =
      match failCand t x (longestSufNode t u) with
      | some q => q ++ [x]
      | none => [] := by
  obtain ⟨hsuf0, hmem0, hmax0⟩ := longestSufNode_spec t ht u
  rcases hfc : failCand t x (longestSufNode t u) with _ | q
  · obtain hnone := (failCand_none_iff t x _).mp hfc
    refine longestSufNode_eq_of t ht (u ++ [x]) [] (List.nil_suffix (l := u ++ [x]))
      ht.root_mem ?_
    intro r hr hrn
    rcases suffix_snoc_elim hr with rfl | ⟨r', rfl, hr'⟩
    · exact le_rfl
    · exfalso
      have hr'n : r' ∈ t.nodes := ht.closed r' x hrn
      have hr'suf : r' <:+ longestSufNode t u := suffix_node_le_longest t ht u r' hr' hr'n
      exact hnone r' hr'suf hrn
  · obtain ⟨hq1, hq2, hq3⟩ := (failCand_some_iff t x _ q).mp hfc
    refine longestSufNode_eq_of t ht (u ++ [x]) (q ++ [x])
      (suffix_append_singleton x (hq1.trans hsuf0)) hq2 ?_
    intro r hr hrn
    rcases suffix_snoc_elim hr with rfl | ⟨r', rfl, hr'⟩
    · simp
    · have hr'n : r' ∈ t.nodes := ht.closed r' x hrn
      have hr'suf : r' <:+ longestSufNode t u := suffix_node_le_longest t ht u r' hr' hr'n
      have := hq3 r' hr'suf hrn
      simp only [List.length_append, List.length_cons, List.length_nil]
      omega

/-- One `consume` step from the longest suffix node of the read prefix lands
on the longest suffix node of the extended prefix, entering a child exactly
when that node is not the root. -/
theorem consume_step (t : TrieS) (ht : GoodTrie t) (u : Str) (x : Char) :
    consume t (fillFailureLinks t) (longestSufNode t u) x =
      (longestSufNode t (u ++ [x]),
       if longestSufNode t (u ++ [x]) = [] then none
       else some (longestSufNode t (u ++ [x]))) := by
  obtain ⟨hsuf0, hmem0, hmax0⟩ := longestSufNode_spec t ht u
  have hlsn := lsn_snoc t ht u x
  rw [consume]
  by_cases hd : (longestSufNode t u ++ [x]) ∈ t.nodes
  · rw [if_pos hd]
    rw [failCand_self t x _ hd] at hlsn
    simp only at hlsn
    rw [hlsn]
    simp
  · rw [if_neg hd]
    have hwalk : scanWalk t (fillFailureLinks t) x (longestSufNode t u).length
        (longestSufNode t u) = (failCand t x (longestSufNode t u)).getD [] :=
      scanWalk_eq t ht (fillFailureLinks t) x (root_links_final t ht).1
        (fun q hq hqn => fail_final t ht q hq hqn) _ _ hmem0 le_rfl
    rcases hfc : failCand t x (longestSufNode t u) with _ | q
    · rw [hfc] at hwalk hlsn
      simp only [Option.getD_none] at hwalk
      simp only at hlsn
      rw [hwalk]
      have hnx : (([] : Str) ++ [x]) ∉ t.nodes := by
        intro h
        exact (failCand_none_iff t x _).mp hfc [] (List.nil_suffix (l := longestSufNode t u)) h
      rw [if_neg hnx, hlsn]
      simp
    · rw [hfc] at hwalk hlsn
      simp only [Option.getD_some] at hwalk
      simp only at hlsn
      have hq2 : (q ++ [x]) ∈ t.nodes := ((failCand_some_iff t x _ q).mp hfc).2.1
      rw [hwalk, if_pos hq2, hlsn]
      simp

/-- The scan loop, started at the longest suffix node of the prefix read so
far, produces exactly the canonical match list. -/
theorem scanFrom_canon (t : TrieS) (ht : GoodTrie t) (hw : t.wordAt [] = false) :
    ∀ (rest u : Str) (i : Nat),
      scanFrom t (fillFailureLinks t) (longestSufNode t u) i rest =
        canonFrom t u i rest := by
  intro rest
  induction rest with
  | nil => intro u i; rfl
  | cons x rest ih =>
    intro u i
    rw [scanFrom, consume_step t ht u x, canonFrom]
    by_cases hnil : longestSufNode t (u ++ [x]) = []
    · rw [if_pos hnil]
      have hempty : wordTails t (u ++ [x]) = [] := by
        rw [wordTails_longest t ht (u ++ [x]), hnil, wordTails_nil t hw]
      rw [hempty, List.map_nil, List.nil_append]
      show scanFrom t (fillFailureLinks t) (longestSufNode t (u ++ [x])) (i + 1) rest = _
      exact ih (u ++ [x]) (i + 1)
    · rw [if_neg hnil]
      obtain ⟨_, hmem, _⟩ := longestSufNode_spec t ht (u ++ [x])
      show emitAt t (fillFailureLinks t) (longestSufNode t (u ++ [x])) i ++
        scanFrom t (fillFailureLinks t) (longestSufNode t (u ++ [x])) (i + 1) rest = _
      rw [emitAt_eq t ht hw _ hmem hnil i, ← wordTails_longest t ht (u ++ [x]),
        ih (u ++ [x]) (i + 1)]

/-- `findPatterns` reports, for every position, exactly the word suffixes of
the prefix ending there, longest first. -/
theorem findPatterns_canon (t : TrieS) (ht : GoodTrie t) (hw : t.wordAt [] = false)
    (text : Str) :
    findPatterns t (fillFailureLinks t) text = canonFrom t [] 0 text := by
  have h := scanFrom_canon t ht hw text [] 0
  rw [longestSufNode_nil t ht] at h
  rw [findPatterns]
  exact h

/-! ### Membership form of the canonical scan and the brute-force matcher -/

theorem mem_wordTails (t : TrieS) (v p : Str) :
    p ∈ wordTails t v ↔ p <:+ v ∧ t.wordAt p = true := by
  rw [wordTails, List.mem_filter, List.mem_tails]

theorem canonFrom_mem (t : TrieS) :
    ∀ (rest u : Str) (j : Nat) (p : Str) (i : Nat),
      (p, i) ∈ canonFrom t u j rest ↔
        ∃ k, k < rest.length ∧ i = j + k ∧ p ∈ wordTails t (u ++ rest.take (k + 1)) := by
  intro rest
  induction rest with
  | nil => simp [canonFrom]
  | cons x rest ih =>
    intro u j p i
    rw [canonFrom, List.mem_append, ih]
    constructor
    · rintro (h | ⟨k, hk, rfl, hp⟩)
      · obtain ⟨q, hq, he⟩ := List.mem_map.mp h
        injection he with he1 he2
        subst he1
        subst he2
        exact ⟨0, by simp, by omega, by simpa using hq⟩
      · refine ⟨k + 1, by simp; omega, by omega, ?_⟩
        have : u ++ (x :: rest).take (k + 1 + 1) = (u ++ [x]) ++ rest.take (k + 1) := by
          simp
        rw [this]
        exact hp
    · rintro ⟨k, hk, rfl, hp⟩
      cases k with
      | zero =>
        left
        refine List.mem_map.mpr ⟨p, ?_, rfl⟩
        simpa using hp
      | succ k =>
        right
        refine ⟨k, by simp at hk; omega, by omega, ?_⟩
        have : u ++ (x :: rest).take (k + 1 + 1) = (u ++ [x]) ++ rest.take (k + 1) := by
          simp
        rw [← this]
        exact hp

theorem bt_root_not_word (ws : List Str) (h : ∀ w ∈ ws, w ≠ []) :
    (buildTrieTree ws).wordAt [] = false := by
  cases hb : (buildTrieTree ws).wordAt []
  · rfl
  · exact absurd rfl (h [] ((bt_wordAt ws []).mp hb))

/-- Membership in the end-index reports of a scan. -/
theorem acScan_mem (ws : List Str) (text : Str) (h : ∀ w ∈ ws, w ≠ []) (p : Str) (i : Nat) :
    (p, i) ∈ acScan ws text ↔
      i < text.length ∧ p ∈ ws ∧ p <:+ text.take (i + 1) := by
  have ht := goodTrie_build ws
  have hw := bt_root_not_word ws h
  rw [acScan, findPatterns_canon _ ht hw, canonFrom_mem]
  constructor
  · rintro ⟨k, hk, rfl, hp⟩
    obtain ⟨h1, h2⟩ := (mem_wordTails _ _ _).mp hp
    exact ⟨by omega, (bt_wordAt ws p).mp h2, by simpa using h1⟩
  · rintro ⟨h1, h2, h3⟩
    exact ⟨i, h1, by omega, (mem_wordTails _ _ _).mpr
      ⟨by simpa using h3, (bt_wordAt ws p).mpr h2⟩⟩

theorem naivePairs_mem (ws : List Str) (text : Str) (p : Str) (j : Nat) :
    (p, j) ∈ naivePairs ws text ↔
      j < text.length ∧ p ∈ ws ∧ (text.drop j).take p.length = p := by
  rw [naivePairs, List.mem_flatMap]
  constructor
  · rintro ⟨j', hj', hmem⟩
    obtain ⟨q, hq, he⟩ := List.mem_map.mp hmem
    injection he with he1 he2
    subst he1
    subst he2
    obtain ⟨hq1, hq2⟩ := List.mem_filter.mp hq
    rw [naiveOccursAt, beq_iff_eq] at hq2
    exact ⟨List.mem_range.mp hj', hq1, hq2⟩
  · rintro ⟨h1, h2, h3⟩
    exact ⟨j, List.mem_range.mpr h1, List.mem_map.mpr
      ⟨p, List.mem_filter.mpr ⟨h2, by rw [naiveOccursAt, beq_iff_eq]; exact h3⟩, rfl⟩⟩

theorem startPairs_mem (ws : List Str) (text : Str) (p : Str) (i : Nat) :
    (p, i) ∈ startPairs ws text ↔
      ∃ e, (p, e) ∈ acScan ws text ∧ e + 1 - p.length = i := by
  rw [startPairs, List.mem_map]
  constructor
  · rintro ⟨⟨q, e⟩, hq, he⟩
    injection he with he1 he2
    subst he1
    exact ⟨e, hq, he2⟩
  · rintro ⟨e, he, hi⟩
    exact ⟨(p, e), he, by rw [hi]⟩

theorem canonFrom_congr (t₁ t₂ : TrieS) (hww : t₁.wordAt = t₂.wordAt) :
    ∀ (rest u : Str) (i : Nat), canonFrom t₁ u i rest = canonFrom t₂ u i rest := by
  intro rest
  induction rest with
  | nil => intro u i; rfl
  | cons x rest ih =>
    intro u i
    rw [canonFrom, canonFrom, wordTails, wordTails, hww, ih]

theorem failStep_none (L : Links) : failStep L none = none := rfl

theorem failStep_iterate (t : TrieS) (ht : GoodTrie t) :
    ∀ (n : Nat) (s : Str), s ∈ t.nodes → s.length ≤ n →
      (failStep (fillFailureLinks t))^[n + 1] (some s) = none := by
  intro n
  induction n with
  | zero =>
    intro s hs hlen
    have : s = [] := List.length_eq_zero.mp (by omega)
    subst this
    show failStep (fillFailureLinks t) (some []) = none
    rw [failStep, Option.some_bind, (root_links_final t ht).1]
  | succ n ih =>
    intro s hs hlen
    rw [Function.iterate_succ_apply]
    by_cases hnil : s = []
    · subst hnil
      have h0 : failStep (fillFailureLinks t) (some []) = none := by
        rw [failStep, Option.some_bind, (root_links_final t ht).1]
      rw [h0]
      exact Function.iterate_fixed (failStep_none _) (n + 1)
    · have h0 : failStep (fillFailureLinks t) (some s) = some (maxSuffixNode t s) := by
        rw [failStep, Option.some_bind, fail_final t ht s hs hnil]
      rw [h0]
      obtain ⟨_, hmem, _⟩ := maxSuffixNode_spec t ht s hnil
      have hlt := maxSuffixNode_length_lt t ht s hnil
      exact ih (maxSuffixNode t s) hmem (by omega)

/-! ### Claim theorems -/

/-- C1: for every list of non-empty patterns and every text, the set of
(pattern, startIndex) pairs reported by `findPatterns` (with
`startIndex = endIndex - length + 1`) equals the set of pairs found by the
naive reference that checks every position of the text against every
pattern. -/
theorem scan_equals_brute_force (ws : List Str) (text : Str)
    (h : ∀ w ∈ ws, w ≠ []) (p : Str) (i : Nat) :
    (p, i) ∈ startPairs ws text ↔ (p, i) ∈ naivePairs ws text := by
  rw [startPairs_mem, naivePairs_mem]
  constructor
  · rintro ⟨e, he, rfl⟩
    obtain ⟨h1, h2, h3⟩ := (acScan_mem ws text h p e).mp he
    have hp : p ≠ [] := h p h2
    have hplen : 1 ≤ p.length := by
      cases p
      · exact absurd rfl hp
      · simp
    obtain ⟨pre, hpre⟩ := h3
    have hlen : pre.length + p.length = min (e + 1) text.length := by
      have hl := congrArg List.length hpre
      simpa [List.length_take] using hl
    have hmin : min (e + 1) text.length = e + 1 := by omega
    rw [hmin] at hlen
    refine ⟨by omega, h2, ?_⟩
    have h4 : (text.take (e + 1)).drop pre.length = p := by
      rw [← hpre, List.drop_left]
    rw [List.drop_take] at h4
    have h5 : e + 1 - pre.length = p.length := by omega
    rw [h5] at h4
    have h6 : pre.length = e + 1 - p.length := by omega
    rw [h6] at h4
    exact h4
  · rintro ⟨h1, h2, h3⟩
    have hp : p ≠ [] := h p h2
    have hplen : 1 ≤ p.length := by
      cases p
      · exact absurd rfl hp
      · simp
    have hlen2 : p.length ≤ text.length - i := by
      have hl := congrArg List.length h3
      simp only [List.length_take, List.length_drop] at hl
      omega
    refine ⟨i + p.length - 1, ?_, by omega⟩
    rw [acScan_mem ws text h]
    refine ⟨by omega, h2, ?_⟩
    have h7 : i + p.length - 1 + 1 = i + p.length := by omega
    rw [h7, List.take_add]
    exact ⟨text.take i, by rw [h3]⟩

/-- Witness for C1: the pair ("he", 2) is reported by both the automaton scan
and the naive matcher on the text "ushers". -/
theorem scan_equals_brute_force_witness :
    ("he".toList, 2) ∈ naivePairs ["he".toList, "she".toList] "ushers".toList ∧
      ("he".toList, 2) ∈ startPairs ["he".toList, "she".toList] "ushers".toList :=
  ⟨by decide,
   (scan_equals_brute_force ["he".toList, "she".toList] "ushers".toList
     (by decide) "he".toList 2).mpr (by decide)⟩

/-- C6: on the automaton built from ["he","she","his","hers"], scanning
"ahishers" yields exactly the matches ("his",1,3), ("she",3,5), ("he",4,5),
("hers",4,7), with 0-based inclusive start and end indices, and no others. -/
theorem overlap_scenario :
    acTriples ["he".toList, "she".toList, "his".toList, "hers".toList]
        "ahishers".toList =
      [("his".toList, 1, 3), ("she".toList, 3, 5), ("he".toList, 4, 5),
       ("hers".toList, 4, 7)] := by
  decide

/-- C2 counterexample: building from ["he", ""] does not fail — there is no
`InvalidPatternError` in the code.  `insert("")` marks the root as a word, the
trie is fully built, and the resulting automaton scans normally. -/
theorem empty_pattern_accepted :
    (buildTrieTree ["he".toList, []]).wordAt [] = true ∧
      (buildTrieTree ["he".toList, []]).nodes = [[], ['h'], ['h', 'e']] ∧
      acScan ["he".toList, []] "she".toList = [("he".toList, 2)] := by
  decide

/-- C2 amended: inserting the empty pattern is accepted, not rejected: it
allocates no node and simply marks the root as a word with the empty pattern;
construction completes and returns the automaton. -/
theorem insert_empty_marks_root (t : TrieS) :
    insert t [] =
      { nodes := t.nodes,
        wordAt := fun q => if q = [] then true else t.wordAt q,
        patAt := fun q => if q = [] then [] else t.patAt q } := rfl

/-- C3: after link construction, every child of the root has failure link
equal to the root, and every deeper node's failure link equals the result of
the reference cursor recurrence of the specification, read over the finished
link table. -/
theorem failure_links_match_reference (ws : List Str) :
    (∀ c : Char, [c] ∈ (buildTrieTree ws).nodes →
      (fillFailureLinks (buildTrieTree ws)).fail [c] = some []) ∧
    (∀ s, s ∈ (buildTrieTree ws).nodes → 2 ≤ s.length →
      (fillFailureLinks (buildTrieTree ws)).fail s =
        some (refFail (buildTrieTree ws) (fillFailureLinks (buildTrieTree ws)).fail s)) := by
  have ht := goodTrie_build ws
  constructor
  · intro c hc
    rw [fail_final _ ht [c] hc (by simp), msn_singleton _ ht c]
  · intro s hs hlen
    have hsne : s ≠ [] := by
      intro h
      rw [h] at hlen
      simp at hlen
    rcases List.eq_nil_or_concat s with rfl | ⟨p, c, hs'⟩
    · exact absurd rfl hsne
    · rw [List.concat_eq_append] at hs'
      subst hs'
      have hpne : p ≠ [] := by
        intro h
        rw [h] at hlen
        simp at hlen
      have hpmem : p ∈ (buildTrieTree ws).nodes := ht.closed p c hs
      rw [fail_final _ ht _ hs hsne]
      congr 1
      rw [refFail]
      simp only [dropLast_snoc, getLastD_snoc]
      rw [fail_final _ ht p hpmem hpne]
      simp only [Option.getD_some]
      obtain ⟨⟨hsuf0, hne0⟩, hmem0, _⟩ := maxSuffixNode_spec _ ht p hpne
      have hlt0 := maxSuffixNode_length_lt _ ht p hpne
      have hwalk : refCursorWalk (buildTrieTree ws)
          (fillFailureLinks (buildTrieTree ws)).fail c p.length
          (maxSuffixNode (buildTrieTree ws) p) =
          (failCand (buildTrieTree ws) c (maxSuffixNode (buildTrieTree ws) p)).getD [] := by
        refine refCursorWalk_eq _ ht c _ (fun q hq hqn => fail_final _ ht q hq hqn)
          _ _ hmem0 (by omega)
      rw [hwalk, msn_snoc _ ht p c hpne]
      rcases hfc : failCand (buildTrieTree ws) c (maxSuffixNode (buildTrieTree ws) p)
        with _ | q
      · have hnx : ¬ ((([] : Str) ++ [c]) ∈ (buildTrieTree ws).nodes) := by
          intro hmem
          exact (failCand_none_iff _ c _).mp hfc []
            (List.nil_suffix (l := maxSuffixNode (buildTrieTree ws) p)) hmem
        simp only [Option.getD_none, if_neg hnx]
      · have hq2 : (q ++ [c]) ∈ (buildTrieTree ws).nodes :=
          ((failCand_some_iff _ c _ q).mp hfc).2.1
        simp only [Option.getD_some, if_pos hq2]

/-- Witness for C3: in the automaton for ["he","she","his","hers"] the node
"sh" (depth 2) carries exactly the failure link the reference recurrence
prescribes. -/
theorem failure_links_match_reference_witness :
    (fillFailureLinks
        (buildTrieTree ["he".toList, "she".toList, "his".toList, "hers".toList])).fail
        "sh".toList =
      some (refFail (buildTrieTree ["he".toList, "she".toList, "his".toList, "hers".toList])
        (fillFailureLinks
          (buildTrieTree ["he".toList, "she".toList, "his".toList, "hers".toList])).fail
        "sh".toList) :=
  (failure_links_match_reference
    ["he".toList, "she".toList, "his".toList, "hers".toList]).2
    "sh".toList (by decide) (by decide)

/-- C4: after link construction, every non-root node has a failure link, and
its output link is the failure target when that target is a word, and the
failure target's output link otherwise.  (The pattern list contains no empty
pattern, which is the spec's domain: `build` is specified to reject it.) -/
theorem output_link_recurrence (ws : List Str) (h : ∀ w ∈ ws, w ≠ [])
    (s : Str) (hs : s ∈ (buildTrieTree ws).nodes) (hsne : s ≠ []) :
    ((fillFailureLinks (buildTrieTree ws)).fail s).isSome = true ∧
    ∀ f, (fillFailureLinks (buildTrieTree ws)).fail s = some f →
      ((buildTrieTree ws).wordAt f = true →
        (fillFailureLinks (buildTrieTree ws)).out s = some f) ∧
      ((buildTrieTree ws).wordAt f = false →
        (fillFailureLinks (buildTrieTree ws)).out s =
          (fillFailureLinks (buildTrieTree ws)).out f) := by
  have ht := goodTrie_build ws
  have hw := bt_root_not_word ws h
  have hfail := fail_final _ ht s hs hsne
  constructor
  · rw [hfail]
    rfl
  · intro f hf
    rw [hfail] at hf
    injection hf with hf
    subst hf
    have hout := out_final _ ht hw s hs hsne
    have hrec := mws_rec _ ht s hsne hw
    constructor
    · intro hwf
      rw [hout, hrec, if_pos hwf]
    · intro hwf
      rw [hout, hrec, if_neg (by simp [hwf])]
      by_cases hfn : maxSuffixNode (buildTrieTree ws) s = []
      · rw [hfn, maxWordSuffix_nil, (root_links_final _ ht).2]
      · obtain ⟨_, hmem, _⟩ := maxSuffixNode_spec _ ht s hsne
        rw [out_final _ ht hw _ hmem hfn]

/-- Witness for C4: in the automaton for ["he","she"], the output link of
"she" is its failure target "he", which is a word. -/
theorem output_link_recurrence_witness :
    (fillFailureLinks (buildTrieTree ["he".toList, "she".toList])).out "she".toList =
      some "he".toList :=
  ((output_link_recurrence ["he".toList, "she".toList] (by decide) "she".toList
    (by decide) (by decide)).2 "he".toList (by decide)).1 (by decide)

/-- C5 counterexample: the claim's root case fails on the code — after
construction the root's failure link is null, not a self-loop to the root. -/
theorem root_failure_link_is_null :
    (fillFailureLinks (buildTrieTree [['a']])).fail [] ≠ some [] ∧
      (fillFailureLinks (buildTrieTree [['a']])).fail [] = none := by
  decide

/-- C5 amended: after link construction every non-root node's failure link
points to a node of strictly smaller depth, and the root's failure link is
absent (the null sentinel), not a self-loop. -/
theorem failure_link_depth_decreases (ws : List Str) :
    (fillFailureLinks (buildTrieTree ws)).fail [] = none ∧
    ∀ s, s ∈ (buildTrieTree ws).nodes → s ≠ [] →
      ((fillFailureLinks (buildTrieTree ws)).fail s).isSome = true ∧
      ∀ q, (fillFailureLinks (buildTrieTree ws)).fail s = some q →
        q ∈ (buildTrieTree ws).nodes ∧ q.length < s.length := by
  have ht := goodTrie_build ws
  refine ⟨(root_links_final _ ht).1, ?_⟩
  intro s hs hsne
  have hfail := fail_final _ ht s hs hsne
  refine ⟨by rw [hfail]; rfl, ?_⟩
  intro q hq
  rw [hfail] at hq
  injection hq with hq
  subst hq
  obtain ⟨_, hmem, _⟩ := maxSuffixNode_spec _ ht s hsne
  exact ⟨hmem, maxSuffixNode_length_lt _ ht s hsne⟩

/-- Witness for C5's amended claim: in the automaton for ["ab"], the failure
link of "ab" is the root, a node of strictly smaller depth. -/
theorem failure_link_depth_decreases_witness :
    ([] : Str) ∈ (buildTrieTree [['a', 'b']]).nodes ∧ (0 : Nat) < 2 :=
  ((failure_link_depth_decreases [['a', 'b']]).2 ['a', 'b'] (by decide) (by decide)).2
    [] (by decide)

/-- C7: inserting a pattern that is already present is the identity on the
trie; two pattern lists with the same members (for instance a list and its
deduplication) build tries with the same nodes and identical `isWord` /
`pattern` fields, and their automata report identical matches on every
text. -/
theorem duplicate_patterns_idempotent (ws₁ ws₂ : List Str)
    (h12 : ∀ s ∈ ws₁, s ∈ ws₂) (h21 : ∀ s ∈ ws₂, s ∈ ws₁)
    (h1 : ∀ w ∈ ws₁, w ≠ []) :
    (∀ s ∈ ws₁, insert (buildTrieTree ws₁) s = buildTrieTree ws₁) ∧
    (∀ q, q ∈ (buildTrieTree ws₁).nodes ↔ q ∈ (buildTrieTree ws₂).nodes) ∧
    (buildTrieTree ws₁).wordAt = (buildTrieTree ws₂).wordAt ∧
    (buildTrieTree ws₁).patAt = (buildTrieTree ws₂).patAt ∧
    ∀ text, acScan ws₁ text = acScan ws₂ text := by
  have h2 : ∀ w ∈ ws₂, w ≠ [] := fun w hw => h1 w (h21 w hw)
  have hww : (buildTrieTree ws₁).wordAt = (buildTrieTree ws₂).wordAt := by
    funext q
    rw [Bool.eq_iff_iff, bt_wordAt, bt_wordAt]
    exact ⟨h12 q, h21 q⟩
  refine ⟨fun s hs => insert_mem_id ws₁ s hs, ?_, hww, ?_, ?_⟩
  · intro q
    rw [bt_nodes_mem, bt_nodes_mem]
    constructor
    · rintro (h | ⟨w, hw, hq⟩)
      · exact Or.inl h
      · exact Or.inr ⟨w, h12 w hw, hq⟩
    · rintro (h | ⟨w, hw, hq⟩)
      · exact Or.inl h
      · exact Or.inr ⟨w, h21 w hw, hq⟩
  · funext q
    rw [buildTrieTree, buildTrieTree, fold_patAt, fold_patAt]
    by_cases hq : q ∈ ws₁
    · rw [if_pos hq, if_pos (h12 q hq)]
    · rw [if_neg hq, if_neg (fun hq2 => hq (h21 q hq2))]
  · intro text
    rw [acScan, acScan, findPatterns_canon _ (goodTrie_build ws₁) (bt_root_not_word ws₁ h1),
      findPatterns_canon _ (goodTrie_build ws₂) (bt_root_not_word ws₂ h2)]
    exact canonFrom_congr _ _ hww text [] 0

/-- Witness for C7: ["he","he","she"] and ["he","she"] give automata with
identical matches on the text "ushers". -/
theorem duplicate_patterns_idempotent_witness :
    acScan ["he".toList, "he".toList, "she".toList] "ushers".toList =
      acScan ["he".toList, "she".toList] "ushers".toList :=
  (duplicate_patterns_idempotent ["he".toList, "he".toList, "she".toList]
    ["he".toList, "she".toList] (by decide) (by decide) (by decide)).2.2.2.2
    "ushers".toList

/-- C8: consuming, at the root, a symbol that is not the first symbol of any
pattern takes the `continue` branch: the failure-walk performs no step for
any amount of fuel (the root's failure link is null), the current node stays
at the root, no match is emitted, and the scan moves on to the next index. -/
theorem root_self_loop_termination (ws : List Str) (x : Char)
    (h : ∀ w ∈ ws, w.head? ≠ some x) :
    consume (buildTrieTree ws) (fillFailureLinks (buildTrieTree ws)) [] x = ([], none) ∧
    (∀ fuel, scanWalk (buildTrieTree ws) (fillFailureLinks (buildTrieTree ws)) x fuel [] = []) ∧
    (∀ (i : Nat) (rest : Str),
      scanFrom (buildTrieTree ws) (fillFailureLinks (buildTrieTree ws)) [] i (x :: rest) =
        scanFrom (buildTrieTree ws) (fillFailureLinks (buildTrieTree ws)) [] (i + 1) rest) := by
  have ht := goodTrie_build ws
  have hx : ([x] : Str) ∉ (buildTrieTree ws).nodes := by
    rw [bt_nodes_mem]
    rintro (habs | ⟨w, hw, _, hpre⟩)
    · exact absurd habs (by simp)
    · obtain ⟨r, hr⟩ := hpre
      refine h w hw ?_
      rw [← hr]
      rfl
  have hx0 : ¬ ((([] : Str) ++ [x]) ∈ (buildTrieTree ws).nodes) := by simpa using hx
  have hcons : consume (buildTrieTree ws) (fillFailureLinks (buildTrieTree ws)) [] x =
      ([], none) := by
    rw [consume, if_neg hx0]
    show (if ((scanWalk _ _ x 0 []) ++ [x]) ∈ (buildTrieTree ws).nodes
      then _ else _) = ([], none)
    rw [scanWalk, if_neg hx0]
    rfl
  refine ⟨hcons, ?_, ?_⟩
  · intro fuel
    cases fuel with
    | zero => rfl
    | succ fuel =>
      rw [scanWalk, (root_links_final _ ht).1]
  · intro i rest
    rw [scanFrom, hcons]

/-- Witness for C8: with the single pattern "he", consuming 'z' at the root
stays at the root and emits nothing. -/
theorem root_self_loop_termination_witness :
    consume (buildTrieTree ["he".toList]) (fillFailureLinks (buildTrieTree ["he".toList]))
      [] 'z' = ([], none) :=
  (root_self_loop_termination ["he".toList] 'z' (by decide)).1

/-- C10: after construction the root's failure and output links are both
absent; every non-root node's failure link is a node of strictly smaller
depth; and iterating the failure step from any node reaches the null sentinel
within depth-of-the-node + 1 steps, so every failure-chain walk
terminates. -/
theorem failure_chain_terminates (ws : List Str) :
    (fillFailureLinks (buildTrieTree ws)).fail [] = none ∧
    (fillFailureLinks (buildTrieTree ws)).out [] = none ∧
    ∀ s, s ∈ (buildTrieTree ws).nodes →
      (∀ q, (fillFailureLinks (buildTrieTree ws)).fail s = some q →
        q ∈ (buildTrieTree ws).nodes ∧ q.length < s.length) ∧
      (failStep (fillFailureLinks (buildTrieTree ws)))^[s.length + 1] (some s) = none := by
  have ht := goodTrie_build ws
  refine ⟨(root_links_final _ ht).1, (root_links_final _ ht).2, ?_⟩
  intro s hs
  constructor
  · intro q hq
    by_cases hsne : s = []
    · rw [hsne, (root_links_final _ ht).1] at hq
      exact absurd hq (by simp)
    · rw [fail_final _ ht s hs hsne] at hq
      injection hq with hq
      subst hq
      obtain ⟨_, hmem, _⟩ := maxSuffixNode_spec _ ht s hsne
      exact ⟨hmem, maxSuffixNode_length_lt _ ht s hsne⟩
  · exact failStep_iterate _ ht s.length s hs le_rfl

/-- Witness for C10: in the automaton for ["he"], three failure steps from
the node "he" reach the null sentinel. -/
theorem failure_chain_terminates_witness :
    (failStep (fillFailureLinks (buildTrieTree ["he".toList])))^[3] (some "he".toList) =
      none :=
  ((failure_chain_terminates ["he".toList]).2.2 "he".toList (by decide)).2

end AhoC
